import Mathlib

/-!
# ParticleFilter: a shallow embedding of `src/src/ParticleFilter.cc`

Conventions of the embedding.

* A C++ `int` is an `Int` (or a `Nat` where the code only counts upwards from zero).
* `std::vector<T>` is `List T`.  An access outside the vector is undefined behaviour in C++;
  here it stops the run with a `Fault` that records the offending index.
* The random generator `rng`, the visibility engine (`Volume`, `Edge`) and `noisedMotion` are not
  part of the translated file; what they return is passed in as a parameter.
* A C++ `double` is read in two ways, and every function that computes with doubles is translated
  once for each reading.
  * Exact reading: a `double` is an element of a linearly ordered field `K`, without rounding,
    overflow or NaN.  These are the definitions at the top level of the namespace
    (`whileAdvance`, `importanceResampler`, `filtering`, `edgeIntersect`, ...).  They are used
    where the arithmetic plays no part in the proof (which particles a resample can return, which
    buckets `edgeIntersect` writes) and for the expected selection count, which is a statement
    about a real-valued offset (`K = ℝ`).
  * Binary64 reading: a `double` is a `Dbl`, a finite number, an infinity or a NaN, and every
    operation rounds its exact result to the nearest binary64 number, halfway cases to the even
    significand, overflowing to an infinity from `2 ^ 1024` on (`fround`).  These are the
    definitions of the namespace `Ieee` (`Ieee.whileAdvance`, `Ieee.importanceResampler`,
    `Ieee.probaComputation`, `Ieee.filtering`, ...).  They are used for every statement whose
    truth depends on rounding, overflow or NaN: the selection made by the resampler, the size of
    the resampled population, the bound on the pointer of the resampler, the sign of the weight
    sum and the value of the weights.  Each operation is evaluated in double precision (no
    extended precision, no fused multiply-add), and the sign of a zero is not recorded.
-/

namespace ParticleFilter

/-- What stops a run of the embedded code: the C++ program has undefined behaviour, keeps looping,
or produces a NaN at this point. -/
inductive Fault where
  /-- `weights.front()` on an empty vector. -/
  | emptyFront : Fault
  /-- Read of `weights[i]` with `i ≥ weights.size()`. -/
  | weightsIndex (i : Nat) : Fault
  /-- Read of `particles[i]` with `i ≥ particles.size()`. -/
  | particlesIndex (i : Nat) : Fault
  /-- Read of `exp_obs[i]` with `i ≥ exp_obs.size()`. -/
  | obsIndex (i : Nat) : Fault
  /-- Write of `range[i]` with `i` outside `0 .. range.size() - 1`. -/
  | rangeIndex (i : Int) : Fault
  /-- A floating-point division by zero: the quotient is a NaN or an infinity. -/
  | divZero : Fault
  /-- The rejection loop of `particleInitialize` is still running when the supplied random draws
  are used up. -/
  | drawsExhausted : Fault
  /-- A conversion `static_cast<int>(x)` of a double that is a NaN, an infinity or outside the
  range of `int`. -/
  | intCast : Fault

section Resampler

variable {K : Type} [LinearOrderedField K]

/-- The inner loop of `importanceResampler`:
`while (u > c) { i++; c += weights[i]; }`, returning the final `(c, i)`.  Exact reading: the
addition is not rounded; `Ieee.whileAdvance` is the loop in binary64 arithmetic. -/
def whileAdvance (weights : List K) (u : K) (c : K) (i : Nat) : Except Fault (K × Nat) :=
  if u > c then
    if h : i + 1 < weights.length then
      whileAdvance weights u (c + weights[i + 1]) (i + 1)
    else .error (.weightsIndex (i + 1))
  else .ok (c, i)
termination_by weights.length - i

/-- The outer loop of `importanceResampler`,
`for (int m = 1; m <= point_num; m++) { u = r + (m - 1) / point_num; ...; tmp.push_back(particles[i]); }`.
The first argument counts the iterations that remain.  Exact reading: the threshold is not
rounded; `Ieee.resampleLoop` is the loop in binary64 arithmetic. -/
def resampleLoop {α : Type} (weights : List K) (particles : List α) (point_num : Nat) (r : K) :
    Nat → Nat → K → Nat → List α → Except Fault (List α)
  | 0, _, _, _, tmp => .ok tmp
  | k + 1, m, c, i, tmp =>
    let u := r + ((m : K) - 1) / (point_num : K)
    match whileAdvance weights u c i with
    | .error e => .error e
    | .ok (c', i') =>
      match particles[i']? with
      | none => .error (.particlesIndex i')
      | some p => resampleLoop weights particles point_num r k (m + 1) c' i' (tmp ++ [p])

/-- `ParticleFilter::importanceResampler`.  `r` is the value of
`rng.uniform(0.0, 1.0 / dpoint_num)`; the result is the new content of `particles`. -/
def importanceResampler {α : Type} (weights : List K) (particles : List α) (point_num : Nat)
    (r : K) : Except Fault (List α) :=
  match weights.head? with
  | none => .error .emptyFront
  | some c => resampleLoop weights particles point_num r point_num 1 c 0 []

/-- The accumulated weight `weights[0] + ... + weights[i]`. -/
def cumWeight (weights : List K) (i : Nat) : K := (weights.take (i + 1)).sum

/-- The threshold of output slot `m` (counted from 1): `u_m = r + (m - 1) / N`. -/
def threshold (point_num : Nat) (r : K) (m : Nat) : K :=
  r + ((m : K) - 1) / (point_num : K)

/-- Index `i` is the smallest index whose accumulated weight reaches `u`. -/
def IsFirstReach (weights : List K) (u : K) (i : Nat) : Prop :=
  u ≤ cumWeight weights i ∧ ∀ j, j < i → cumWeight weights j < u

/-- The lower end of the interval of thresholds that select index `i`: the accumulated weight
before `i`, which is 0 for the first index. -/
def cumBefore (weights : List K) (i : Nat) : K :=
  match i with
  | 0 => 0
  | k + 1 => cumWeight weights k

/-- The number of output slots of `importanceResampler` that select the particle of index `i`:
the resampler is run on the population `0, 1, ..., point_num - 1`, in which every particle is its
own index. -/
def selectionCount (weights : List K) (point_num : Nat) (r : K) (i : Nat) : Nat :=
  match importanceResampler weights (List.range point_num) point_num r with
  | .ok ids => ids.count i
  | .error _ => 0

end Resampler

section Population

variable {K : Type} [LinearOrderedField K]

/-- The loop of `particleInitialize`: `while (pt_num < point_num) { ... }`.  `src row col` is
`src.at<uchar>(row, col)`; the list holds the successive pairs `(x, y)` that
`rng.uniform(38, 1167)` and `rng.uniform(38, 867)` return. -/
def initLoop (src : Int → Int → Nat) (point_num : Nat) :
    List (Int × Int) → Nat → List (K × K) → Except Fault (List (K × K))
  | [], pt_num, particles =>
    if pt_num < point_num then .error .drawsExhausted else .ok particles
  | (x, y) :: draws, pt_num, particles =>
    if pt_num < point_num then
      if src y x > 0 then initLoop src point_num draws (pt_num + 1) (particles ++ [((x : K), (y : K))])
      else initLoop src point_num draws pt_num particles
    else .ok particles

/-- `ParticleFilter::particleInitialize`: the result is the new content of `particles`
(`particles.clear()` first, then the rejection loop). -/
def particleInitialize (src : Int → Int → Nat) (point_num : Nat) (draws : List (Int × Int)) :
    Except Fault (List (K × K)) :=
  initLoop src point_num draws 0 []

/-- The loop of `particleUpdate`; `noisedMotion n mx my` is the pair `(_mx, _my)` that the `n`-th
call `noisedMotion(_mx, _my)` leaves behind. -/
def updateLoop (noisedMotion : Nat → K → K → K × K) (mx my : K) :
    Nat → List (K × K) → List (K × K)
  | _, [] => []
  | n, pt :: rest =>
    let d := noisedMotion n mx my
    (pt.1 + d.1, pt.2 + d.2) :: updateLoop noisedMotion mx my (n + 1) rest

/-- `ParticleFilter::particleUpdate`. -/
def particleUpdate (noisedMotion : Nat → K → K → K × K) (mx my : K) (particles : List (K × K)) :
    List (K × K) :=
  updateLoop noisedMotion mx my 0 particles

end Population

section Weights

variable {K : Type} [LinearOrderedField K]

/-- The loop of `probaComputation`, `for (i < z.size()) s += std::abs(z[i] - exp_obs[i])`, run over
the entries of `z` that remain, `i` being the index of the first of them. -/
def sumAbsDiff (exp_obs : List K) : List K → Nat → K → Except Fault K
  | [], _, s => .ok s
  | zi :: rest, i, s =>
    match exp_obs[i]? with
    | none => .error (.obsIndex i)
    | some e => sumAbsDiff exp_obs rest (i + 1) (s + |zi - e|)

/-- `ParticleFilter::probaComputation`.  With an empty `z` the code divides `0.0` by `0.0`.
Exact reading: no rounding, overflow or NaN; `Ieee.probaComputation` is the function in binary64
arithmetic. -/
def probaComputation (z exp_obs : List K) : Except Fault K :=
  match sumAbsDiff exp_obs z 0 0 with
  | .error e => .error e
  | .ok s =>
    if z.length = 0 then .error .divZero
    else .ok (1 / (s / (z.length : K) + 1))

variable [FloorRing K]

/-- The conversion `static_cast<int>(x)` of a `double`: truncation towards zero. -/
def toInt (x : K) : Int := if 0 ≤ x then ⌊x⌋ else ⌈x⌉

/-- The body of the weighting loop of `filtering` for one particle: `1e-4` on a blocked cell,
otherwise `probaComputation(act_range, range)`.  `range` is the particle's predicted range vector
as it is after `scanPerturb`. -/
def particleWeight (occupancy : Int → Int → Nat) (act_range range : List K) (pt : K × K) :
    Except Fault K :=
  let col := toInt pt.1
  let row := toInt pt.2
  if occupancy row col = 0 then .ok (1 / 10000)
  else probaComputation act_range range

/-- The weighting loop of `filtering`, `for (i < particles.size()) weights[i] = ...`, run over the
particles that remain, `i` being the index of the first of them.  `ranges i` is the predicted
range vector of particle `i`. -/
def weightLoop (occupancy : Int → Int → Nat) (act_range : List K) (ranges : Nat → List K) :
    List (K × K) → Nat → List K → Except Fault (List K)
  | [], _, weights => .ok weights
  | pt :: rest, i, weights =>
    match particleWeight occupancy act_range (ranges i) pt with
    | .error e => .error e
    | .ok w =>
      if i < weights.length then
        weightLoop occupancy act_range ranges rest (i + 1) (weights.set i w)
      else .error (.weightsIndex i)

/-- The weights of `filtering` before normalisation: `weights.resize(point_num, 0.0)` followed by
the weighting loop. -/
def computeWeights (occupancy : Int → Int → Nat) (point_num : Nat) (act_range : List K)
    (ranges : Nat → List K) (particles : List (K × K)) : Except Fault (List K) :=
  weightLoop occupancy act_range ranges particles 0 (List.replicate point_num 0)

/-- The normalisation of `filtering`: `weight_sum = std::accumulate(...)`, then
`val /= weight_sum` for every entry. -/
def normalize (weights : List K) : Except Fault (List K) :=
  let weight_sum := weights.sum
  match weights with
  | [] => .ok []
  | _ :: _ =>
    if weight_sum = 0 then .error .divZero
    else .ok (weights.map (fun val => val / weight_sum))

/-- `ParticleFilter::filtering`, from the weighting loop on: the weights, their normalisation and
the resampling.  `act_range` and `ranges i` are the actual range vector and the predicted range
vector of particle `i`, both as they are after `scanPerturb`; `r` is the offset drawn by
`importanceResampler`.  The result is the new content of `particles`. -/
def filtering (occupancy : Int → Int → Nat) (point_num : Nat) (act_range : List K)
    (ranges : Nat → List K) (r : K) (particles : List (K × K)) : Except Fault (List (K × K)) :=
  match computeWeights occupancy point_num act_range ranges particles with
  | .error e => .error e
  | .ok weights =>
    match normalize weights with
    | .error e => .error e
    | .ok weights => importanceResampler weights particles point_num r

end Weights

section Scanner

variable {K : Type} [LinearOrderedField K] [FloorRing K]

/-- An edge of the visual volume, as far as `edgeIntersect` reads it:
`angle_start = eg.front().z()` and `angle_end = eg.back().z()`. -/
structure Edge (K : Type) where
  /-- The third coordinate of the first point of the edge. -/
  angle_start : K
  /-- The third coordinate of the last point of the edge. -/
  angle_end : K

/-- The function `std::round` followed by the conversion to `int`: halfway cases go away from
zero. -/
def roundToInt (x : K) : Int := if 0 ≤ x then ⌊x + 1 / 2⌋ else ⌈x - 1 / 2⌉

/-- The value of `ray_num` set by the constructor: `std::round(2 * M_PI / angle_incre)`. -/
def rayNum (M_PI angle_incre : K) : Except Fault Int :=
  if angle_incre = 0 then .error .divZero else .ok (roundToInt (2 * M_PI / angle_incre))

/-- The two bucket indices of `edgeIntersect`,
`id_start = static_cast<int>(ceil((angle_start + M_PI) / angle_incre))` and
`id_end = static_cast<int>(floor((angle_end + M_PI) / angle_incre))`.  A zero `angle_incre` makes
both quotients a division by zero. -/
def bucketIds (M_PI angle_incre : K) (eg : Edge K) : Except Fault (Int × Int) :=
  if angle_incre = 0 then .error .divZero
  else .ok (⌈(eg.angle_start + M_PI) / angle_incre⌉, ⌊(eg.angle_end + M_PI) / angle_incre⌋)

/-- The values of `i` taken by `for (int i = lo; i < hi; i++)`, in order. -/
def forRange (lo hi : Int) : List Int :=
  (List.range (hi - lo).toNat).map (fun (k : Nat) => lo + (k : Int))

/-- The body of the three loops of `edgeIntersect` as the assignment it performs:
`range[i] = eg.getRayIntersect(vec, obs).norm()` with `angle = angle_incre * i - M_PI`.
`rayNorm eg angle obs` is that norm. -/
def rayWrite (rayNorm : Edge K → K → K × K → K) (M_PI angle_incre : K) (eg : Edge K)
    (obs : K × K) (i : Int) : Int × K :=
  (i, rayNorm eg (angle_incre * (i : K) - M_PI) obs)

/-- The assignments `range[i] = v` that `edgeIntersect` performs once `id_start` and `id_end`
are known, in program order: none when `id_start == id_end + 1`, the two loops of the wraparound
branch when `id_start > id_end`, the single loop otherwise. -/
def rayWrites (rayNorm : Edge K → K → K × K → K) (M_PI angle_incre : K) (ray_num : Int)
    (eg : Edge K) (obs : K × K) (id_start id_end : Int) : List (Int × K) :=
  if id_start = id_end + 1 then []
  else if id_start > id_end then
    (forRange id_start ray_num).map (rayWrite rayNorm M_PI angle_incre eg obs) ++
      (forRange 0 (id_end + 1)).map (rayWrite rayNorm M_PI angle_incre eg obs)
  else (forRange id_start (id_end + 1)).map (rayWrite rayNorm M_PI angle_incre eg obs)

/-- One assignment `range[i] = v` on a `std::vector<double>`. -/
def store (range : List K) (w : Int × K) : Except Fault (List K) :=
  if 0 ≤ w.1 ∧ w.1 < (range.length : Int) then .ok (range.set w.1.toNat w.2)
  else .error (.rangeIndex w.1)

/-- A sequence of assignments carried out from left to right. -/
def storeAll : List K → List (Int × K) → Except Fault (List K)
  | range, [] => .ok range
  | range, w :: ws =>
    match store range w with
    | .error e => .error e
    | .ok range' => storeAll range' ws

/-- `ParticleFilter::edgeIntersect`: the result is the new content of `range`. -/
def edgeIntersect (rayNorm : Edge K → K → K × K → K) (M_PI angle_incre : K) (ray_num : Int)
    (eg : Edge K) (obs : K × K) (range : List K) : Except Fault (List K) :=
  match bucketIds M_PI angle_incre eg with
  | .error e => .error e
  | .ok (id_start, id_end) =>
    storeAll range (rayWrites rayNorm M_PI angle_incre ray_num eg obs id_start id_end)

/-- The loop of `scanPerturb`, `for (double& val : range) val += rng.gaussian(7)`; `gaussian n` is
the `n`-th value returned by `rng.gaussian(7)`. -/
def perturbLoop (gaussian : Nat → K) : Nat → List K → List K
  | _, [] => []
  | n, val :: rest => (val + gaussian n) :: perturbLoop gaussian (n + 1) rest

/-- `ParticleFilter::scanPerturb`. -/
def scanPerturb (gaussian : Nat → K) (range : List K) : List K :=
  perturbLoop gaussian 0 range

/-- The loop `for (const Edge& eg : edges) edgeIntersect(eg, obs, range)` of `filtering`. -/
def castRays (rayNorm : Edge K → K → K × K → K) (M_PI angle_incre : K) (ray_num : Int)
    (obs : K × K) : List (Edge K) → List K → Except Fault (List K)
  | [], range => .ok range
  | eg :: edges, range =>
    match edgeIntersect rayNorm M_PI angle_incre ray_num eg obs range with
    | .error e => .error e
    | .ok range' => castRays rayNorm M_PI angle_incre ray_num obs edges range'

/-- The range vector that `filtering` computes for the position `obs`, whose valid edges are
`edges`: `range.resize(ray_num, -1.0)`, the loop over the edges, then `scanPerturb`.  This is
how the vectors `act_range` and `ranges i` of `filtering` come about. -/
def scanRange (rayNorm : Edge K → K → K × K → K) (M_PI angle_incre : K) (ray_num : Int)
    (gaussian : Nat → K) (edges : List (Edge K)) (obs : K × K) : Except Fault (List K) :=
  match castRays rayNorm M_PI angle_incre ray_num obs edges (List.replicate ray_num.toNat (-1)) with
  | .error e => .error e
  | .ok range => .ok (scanPerturb gaussian range)

/-- The `double` constant `M_PI` of `<cmath>`, which is `884279719003555 / 2 ^ 48` exactly. -/
def M_PI_double : ℚ := 884279719003555 / 281474976710656

end Scanner

/-! ## Binary64 arithmetic: definitions -/

/-- A value of the C++ type `double` (IEEE 754 binary64): a finite number, an infinity or a NaN.
The sign of a zero is not recorded. -/
inductive Dbl where
  /-- A finite value. -/
  | fin (q : ℚ) : Dbl
  /-- The value `+inf`. -/
  | pinf : Dbl
  /-- The value `-inf`. -/
  | ninf : Dbl
  /-- A NaN. -/
  | nan : Dbl

namespace Dbl

/-- The comparison `a < b` of two doubles; false when either is a NaN. -/
def lt : Dbl → Dbl → Prop
  | fin x, fin y => x < y
  | fin _, pinf => True
  | ninf, fin _ => True
  | ninf, pinf => True
  | _, _ => False

/-- The comparison `a <= b` of two doubles; false when either is a NaN. -/
def le : Dbl → Dbl → Prop
  | fin x, fin y => x ≤ y
  | fin _, pinf => True
  | ninf, fin _ => True
  | ninf, pinf => True
  | pinf, pinf => True
  | ninf, ninf => True
  | _, _ => False

instance : LT Dbl := ⟨lt⟩

instance : LE Dbl := ⟨le⟩

instance decLt (a b : Dbl) : Decidable (a < b) :=
  match a, b with
  | fin x, fin y => inferInstanceAs (Decidable (x < y))
  | fin _, pinf => isTrue trivial
  | ninf, fin _ => isTrue trivial
  | ninf, pinf => isTrue trivial
  | fin _, ninf => isFalse id
  | fin _, nan => isFalse id
  | pinf, _ => isFalse (by intro h; cases b <;> exact h)
  | ninf, ninf => isFalse id
  | ninf, nan => isFalse id
  | nan, _ => isFalse (by intro h; cases b <;> exact h)

end Dbl

/-- Rounding of a rational to the nearest integer, halfway cases to the even neighbour. -/
def roundEven (t : ℚ) : Int :=
  if t - ⌊t⌋ < 1 / 2 then ⌊t⌋
  else if 1 / 2 < t - ⌊t⌋ then ⌊t⌋ + 1
  else if ⌊t⌋ % 2 = 0 then ⌊t⌋ else ⌊t⌋ + 1

/-- The exponent of the binade of `x`: `floor (log2 |x|)`, but not below the exponent `-1022` of
the subnormal numbers. -/
def binade (x : ℚ) : Int := max (Int.log 2 |x|) (-1022)

/-- Rounding to the nearest number with a 53-bit significand (exponent unbounded above), halfway
cases to the even significand: the binary64 rounding before the overflow test. -/
def rne (x : ℚ) : ℚ := (roundEven (x / 2 ^ (binade x - 52)) : ℚ) * 2 ^ (binade x - 52)

/-- The magnitude from which a rounded result overflows: `2 ^ 1024`. -/
def overflowBound : ℚ := 2 ^ 1024

/-- The binary64 result of an operation whose exact result is `x`: round to nearest even, and
overflow to an infinity when the rounded magnitude reaches `2 ^ 1024`. -/
def fround (x : ℚ) : Dbl :=
  if overflowBound ≤ rne x then .pinf
  else if rne x ≤ -overflowBound then .ninf
  else .fin (rne x)



namespace Dbl

/-- The value `-a`. -/
def fneg : Dbl → Dbl
  | fin x => fin (-x)
  | pinf => ninf
  | ninf => pinf
  | nan => nan

/-- The function `std::abs` on doubles. -/
def fabs : Dbl → Dbl
  | fin x => fin |x|
  | pinf => pinf
  | ninf => pinf
  | nan => nan

/-- The binary64 sum `a + b`. -/
def fadd : Dbl → Dbl → Dbl
  | fin x, fin y => fround (x + y)
  | fin _, pinf => pinf
  | fin _, ninf => ninf
  | pinf, fin _ => pinf
  | pinf, pinf => pinf
  | ninf, fin _ => ninf
  | ninf, ninf => ninf
  | _, _ => nan

/-- The binary64 difference `a - b`. -/
def fsub (a b : Dbl) : Dbl := fadd a (fneg b)

/-- The binary64 quotient `a / b`; a zero divisor is `+0.0`. -/
def fdiv : Dbl → Dbl → Dbl
  | fin x, fin y =>
    if y = 0 then (if x = 0 then nan else if 0 < x then pinf else ninf)
    else fround (x / y)
  | fin _, pinf => fin 0
  | fin _, ninf => fin 0
  | pinf, fin y => if 0 ≤ y then pinf else ninf
  | ninf, fin y => if 0 ≤ y then ninf else pinf
  | _, _ => nan

/-- The conversion `static_cast<double>(n)` of a non-negative integer. -/
def ofNat (n : Nat) : Dbl := fround (n : ℚ)

end Dbl

namespace Ieee

open Dbl

/-- The inner loop of `importanceResampler` in binary64 arithmetic:
`while (u > c) { i++; c += weights[i]; }`, returning the final `(c, i)`. -/
def whileAdvance (weights : List Dbl) (u : Dbl) (c : Dbl) (i : Nat) : Except Fault (Dbl × Nat) :=
  if u > c then
    if h : i + 1 < weights.length then
      whileAdvance weights u (fadd c weights[i + 1]) (i + 1)
    else .error (.weightsIndex (i + 1))
  else .ok (c, i)
termination_by weights.length - i

/-- The outer loop of `importanceResampler` in binary64 arithmetic,
`for (int m = 1; m <= point_num; m++) { u = r + (m - 1) / point_num; ...; tmp.push_back(particles[i]); }`.
The first argument counts the iterations that remain. -/
def resampleLoop {α : Type} (weights : List Dbl) (particles : List α) (point_num : Nat)
    (r : Dbl) : Nat → Nat → Dbl → Nat → List α → Except Fault (List α)
  | 0, _, _, _, tmp => .ok tmp
  | k + 1, m, c, i, tmp =>
    let u := fadd r (fdiv (ofNat (m - 1)) (ofNat point_num))
    match whileAdvance weights u c i with
    | .error e => .error e
    | .ok (c', i') =>
      match particles[i']? with
      | none => .error (.particlesIndex i')
      | some p => resampleLoop weights particles point_num r k (m + 1) c' i' (tmp ++ [p])

/-- `ParticleFilter::importanceResampler` in binary64 arithmetic.  `r` is the value of
`rng.uniform(0.0, 1.0 / dpoint_num)`; the result is the new content of `particles`. -/
def importanceResampler {α : Type} (weights : List Dbl) (particles : List α) (point_num : Nat)
    (r : Dbl) : Except Fault (List α) :=
  match weights.head? with
  | none => .error .emptyFront
  | some c => resampleLoop weights particles point_num r point_num 1 c 0 []

/-- The accumulated weight `c` that the loop of `importanceResampler` has computed when its
pointer stands at `i`: `weights[0]`, then one rounded addition per index. -/
def accum (weights : List Dbl) : Nat → Dbl
  | 0 => weights.headD nan
  | i + 1 => fadd (accum weights i) (weights.getD (i + 1) nan)

/-- The threshold of output slot `m` (counted from 1) as the loop computes it:
`u = r + static_cast<double>(m - 1) / dpoint_num`. -/
def threshold (point_num : Nat) (r : Dbl) (m : Nat) : Dbl :=
  fadd r (fdiv (ofNat (m - 1)) (ofNat point_num))

end Ieee

namespace Dbl

/-- The test `std::isfinite`: neither an infinity nor a NaN. -/
def isFinite : Dbl → Bool
  | fin _ => true
  | _ => false

/-- The conversion `static_cast<int>(x)` of a double: truncation towards zero.  The conversion of
a NaN, of an infinity or of a value whose truncation is outside the range of `int` is undefined
behaviour. -/
def toInt : Dbl → Except Fault Int
  | fin q =>
    if -(2 ^ 31 : ℚ) - 1 < q ∧ q < 2 ^ 31 then .ok (if 0 ≤ q then ⌊q⌋ else ⌈q⌉)
    else .error .intCast
  | _ => .error .intCast

end Dbl

/-- The largest finite double, `DBL_MAX = 2 ^ 1024 - 2 ^ 971`. -/
def maxFinite : ℚ := 2 ^ 1024 - 2 ^ 971

namespace Ieee

open Dbl

/-- The loop of `probaComputation` in binary64 arithmetic,
`for (i < z.size()) s += std::abs(z[i] - exp_obs[i])`, run over the entries of `z` that remain,
`i` being the index of the first of them. -/
def sumAbsDiff (exp_obs : List Dbl) : List Dbl → Nat → Dbl → Except Fault Dbl
  | [], _, s => .ok s
  | zi :: rest, i, s =>
    match exp_obs[i]? with
    | none => .error (.obsIndex i)
    | some e => sumAbsDiff exp_obs rest (i + 1) (fadd s (fabs (fsub zi e)))

/-- `ParticleFilter::probaComputation` in binary64 arithmetic:
`s /= static_cast<double>(z.size()); return 1.0 / (s + 1.0);`.  With an empty `z` the quotient
`0.0 / 0.0` is a NaN, and so is the result. -/
def probaComputation (z exp_obs : List Dbl) : Except Fault Dbl :=
  match sumAbsDiff exp_obs z 0 (fin 0) with
  | .error e => .error e
  | .ok s => .ok (fdiv (fin 1) (fadd (fdiv s (ofNat z.length)) (fin 1)))

/-- The mean absolute difference of two range vectors in binary64 arithmetic: the absolute
differences, entry by entry, added up from `0.0` in the order of the entries and divided by the
number of entries. -/
def meanAbsDiff (z exp_obs : List Dbl) : Dbl :=
  fdiv ((List.zipWith (fun a b => fabs (fsub a b)) z exp_obs).foldl fadd (fin 0)) (ofNat z.length)

/-- The occupancy value that `filtering` reads for a particle:
`col = static_cast<int>(pt.x()), row = static_cast<int>(pt.y()); occupancy.at<uchar>(row, col)`. -/
def cell (occupancy : Int → Int → Nat) (pt : Dbl × Dbl) : Except Fault Nat :=
  match Dbl.toInt pt.1 with
  | .error e => .error e
  | .ok col =>
    match Dbl.toInt pt.2 with
    | .error e => .error e
    | .ok row => .ok (occupancy row col)

/-- The body of the weighting loop of `filtering` for one particle: the double `1e-4` on a blocked
cell, otherwise `probaComputation(act_range, range)`.  `range` is the particle's predicted range
vector as it is after `scanPerturb`. -/
def particleWeight (occupancy : Int → Int → Nat) (act_range range : List Dbl) (pt : Dbl × Dbl) :
    Except Fault Dbl :=
  match cell occupancy pt with
  | .error e => .error e
  | .ok v =>
    if v = 0 then .ok (fround (1 / 10000))
    else probaComputation act_range range

/-- The weighting loop of `filtering`, `for (i < particles.size()) weights[i] = ...`, run over the
particles that remain, `i` being the index of the first of them.  `ranges i` is the predicted
range vector of particle `i`. -/
def weightLoop (occupancy : Int → Int → Nat) (act_range : List Dbl) (ranges : Nat → List Dbl) :
    List (Dbl × Dbl) → Nat → List Dbl → Except Fault (List Dbl)
  | [], _, weights => .ok weights
  | pt :: rest, i, weights =>
    match particleWeight occupancy act_range (ranges i) pt with
    | .error e => .error e
    | .ok w =>
      if i < weights.length then
        weightLoop occupancy act_range ranges rest (i + 1) (weights.set i w)
      else .error (.weightsIndex i)

/-- The weights of `filtering` before normalisation: `weights.resize(point_num, 0.0)` followed by
the weighting loop. -/
def computeWeights (occupancy : Int → Int → Nat) (point_num : Nat) (act_range : List Dbl)
    (ranges : Nat → List Dbl) (particles : List (Dbl × Dbl)) : Except Fault (List Dbl) :=
  weightLoop occupancy act_range ranges particles 0 (List.replicate point_num (fin 0))

/-- The sum `weight_sum = std::accumulate(weights.begin(), weights.end(), 0.0)`: the weights are
added one by one, from the left, each addition rounded. -/
def weightSum (weights : List Dbl) : Dbl := weights.foldl fadd (fin 0)

/-- The normalisation of `filtering`: `val /= weight_sum` for every entry.  A division by a zero
or NaN `weight_sum` does not stop the program; it leaves infinities or NaNs in `weights`. -/
def normalize (weights : List Dbl) : List Dbl :=
  weights.map (fun val => fdiv val (weightSum weights))

/-- `ParticleFilter::filtering` in binary64 arithmetic, from the weighting loop on: the weights,
their normalisation and the resampling.  `act_range` and `ranges i` are the actual range vector
and the predicted range vector of particle `i`, both as they are after `scanPerturb`; `r` is the
offset drawn by `importanceResampler`.  The result is the new content of `particles`. -/
def filtering (occupancy : Int → Int → Nat) (point_num : Nat) (act_range : List Dbl)
    (ranges : Nat → List Dbl) (r : Dbl) (particles : List (Dbl × Dbl)) :
    Except Fault (List (Dbl × Dbl)) :=
  match computeWeights occupancy point_num act_range ranges particles with
  | .error e => .error e
  | .ok weights => importanceResampler (normalize weights) particles point_num r

end Ieee

/-! ## Theorems -/

section ResamplerLemmas

variable {K : Type} [LinearOrderedField K]

theorem cumWeight_succ (weights : List K) (i : Nat) (h : i + 1 < weights.length) :
    cumWeight weights (i + 1) = cumWeight weights i + weights[i + 1] := by
  unfold cumWeight
  rw [List.take_succ, List.sum_append, List.getElem?_eq_getElem h]
  simp

theorem cumWeight_zero (weights : List K) (c : K) (h : weights.head? = some c) :
    cumWeight weights 0 = c := by
  cases weights with
  | nil => simp at h
  | cons a t => simp at h; simp [cumWeight, h]

theorem cumWeight_of_length_le (weights : List K) (i : Nat) (h : weights.length ≤ i + 1) :
    cumWeight weights i = weights.sum := by
  unfold cumWeight
  rw [List.take_of_length_le h]

theorem threshold_mono (point_num : Nat) (r : K) {m n : Nat} (h : m ≤ n) :
    threshold point_num r m ≤ threshold point_num r n := by
  unfold threshold
  have hN : (0 : K) ≤ (point_num : K) := Nat.cast_nonneg _
  have hmn : (m : K) ≤ (n : K) := Nat.cast_le.mpr h
  have : ((m : K) - 1) / (point_num : K) ≤ ((n : K) - 1) / (point_num : K) :=
    div_le_div_of_nonneg_right (by linarith) hN
  linarith

/-- The inner loop started on an accumulated weight stops at the first index, from `i` on, whose
accumulated weight reaches `u`, provided some index `k` in the vector reaches `u`. -/
theorem whileAdvance_reach (weights : List K) (u : K) :
    ∀ (d i k : Nat), k = i + d → k < weights.length → u ≤ cumWeight weights k →
      ∃ j, whileAdvance weights u (cumWeight weights i) i = .ok (cumWeight weights j, j) ∧
        i ≤ j ∧ j ≤ k ∧ u ≤ cumWeight weights j ∧
        ∀ l, i ≤ l → l < j → cumWeight weights l < u := by
  intro d
  induction d with
  | zero =>
    intro i k hk _ hu
    have hki : k = i := by omega
    rw [hki] at hu
    refine ⟨i, ?_, le_refl _, by omega, hu, fun l h1 h2 => absurd h2 (by omega)⟩
    rw [whileAdvance]
    simp [not_lt.mpr hu]
  | succ d ih =>
    intro i k hk hlt hu
    by_cases hc : u ≤ cumWeight weights i
    · refine ⟨i, ?_, le_refl _, by omega, hc, fun l h1 h2 => absurd h2 (by omega)⟩
      rw [whileAdvance]
      simp [not_lt.mpr hc]
    · have hc' : cumWeight weights i < u := not_le.mp hc
      have hi : i + 1 < weights.length := by omega
      obtain ⟨j, hj, hij, hjk, huj, hall⟩ := ih (i + 1) k (by omega) hlt hu
      refine ⟨j, ?_, by omega, hjk, huj, ?_⟩
      · rw [whileAdvance]
        simp only [gt_iff_lt, hc', if_true, hi, dite_true]
        rw [← cumWeight_succ weights i hi]
        exact hj
      · intro l h1 h2
        by_cases hl : l = i
        · subst hl; exact hc'
        · exact hall l (by omega) h2

/-- Invariant of the outer loop: when the last threshold does not exceed the total weight, the
loop runs to its end without leaving the vectors, keeps what is already in `tmp`, and appends for
each remaining slot the particle at the first index whose accumulated weight reaches the slot's
threshold. -/
theorem resampleLoop_spec {α : Type} (weights : List K) (particles : List α) (point_num : Nat)
    (r : K) (hlen : particles.length = weights.length)
    (htop : threshold point_num r point_num ≤ weights.sum) :
    ∀ (k m i : Nat) (tmp : List α), m + k = point_num + 1 → i < weights.length →
      (∀ l, l < i → cumWeight weights l < threshold point_num r m) →
      ∃ out, resampleLoop weights particles point_num r k m (cumWeight weights i) i tmp = .ok out ∧
        out.length = tmp.length + k ∧
        (∀ s, s < tmp.length → out[s]? = tmp[s]?) ∧
        ∀ s, s < k → ∃ j, j < weights.length ∧ out[tmp.length + s]? = particles[j]? ∧
          IsFirstReach weights (threshold point_num r (m + s)) j := by
  intro k
  induction k with
  | zero =>
    intro m i tmp _ _ _
    exact ⟨tmp, rfl, by simp, fun s _ => rfl, fun s hs => absurd hs (by omega)⟩
  | succ k ih =>
    intro m i tmp hmk hi hbelow
    have hum : threshold point_num r m ≤ cumWeight weights (weights.length - 1) := by
      rw [cumWeight_of_length_le weights _ (by omega)]
      exact le_trans (threshold_mono point_num r (by omega)) htop
    obtain ⟨j, hj, hij, hjk, huj, hall⟩ :=
      whileAdvance_reach weights (threshold point_num r m) (weights.length - 1 - i) i
        (weights.length - 1) (by omega) (by omega) hum
    have hjlt : j < weights.length := by omega
    have hfirst : IsFirstReach weights (threshold point_num r m) j := by
      refine ⟨huj, fun l hl => ?_⟩
      by_cases hli : l < i
      · exact hbelow l hli
      · exact hall l (by omega) hl
    have hpj : particles[j]? = some (particles[j]) := List.getElem?_eq_getElem (by omega)
    obtain ⟨out, hout, hlen', hpre, hslots⟩ := ih (m + 1) j (tmp ++ [particles[j]]) (by omega) hjlt
      (fun l hl => lt_of_lt_of_le (hfirst.2 l hl) (threshold_mono point_num r (by omega)))
    refine ⟨out, ?_, ?_, ?_, ?_⟩
    · have hj' := hj
      unfold threshold at hj'
      rw [resampleLoop]
      simp only [hj', hpj]
      exact hout
    · rw [hlen']; simp; omega
    · intro s hs
      rw [hpre s (by simp; omega), List.getElem?_append_left hs]
    · intro s hs
      cases s with
      | zero =>
        refine ⟨j, hjlt, ?_, hfirst⟩
        rw [Nat.add_zero, hpre tmp.length (by simp), hpj]
        simp
      | succ s =>
        obtain ⟨j', hj', hget, hf⟩ := hslots s (by omega)
        refine ⟨j', hj', ?_, ?_⟩
        · rw [← hget]; congr 1; simp; omega
        · have : m + 1 + s = m + (s + 1) := by omega
          rw [← this]; exact hf

/-- Whatever the weights, a run of the outer loop that ends without a fault has appended one
particle of the population per remaining iteration. -/
theorem resampleLoop_ok {α : Type} (weights : List K) (particles : List α) (point_num : Nat)
    (r : K) :
    ∀ (k m : Nat) (c : K) (i : Nat) (tmp out : List α),
      resampleLoop weights particles point_num r k m c i tmp = .ok out →
      out.length = tmp.length + k ∧ ∀ p, p ∈ out → p ∈ tmp ∨ p ∈ particles := by
  intro k
  induction k with
  | zero =>
    intro m c i tmp out h
    simp only [resampleLoop, Except.ok.injEq] at h
    subst h
    exact ⟨rfl, fun p hp => Or.inl hp⟩
  | succ k ih =>
    intro m c i tmp out h
    rw [resampleLoop] at h
    split at h
    · exact absurd h (by simp)
    · rename_i c' i' _
      split at h
      · exact absurd h (by simp)
      · rename_i p hp
        obtain ⟨hl, hm⟩ := ih _ _ _ _ _ h
        refine ⟨by rw [hl]; simp; omega, fun q hq => ?_⟩
        rcases hm q hq with h1 | h1
        · rcases List.mem_append.mp h1 with h2 | h2
          · exact Or.inl h2
          · simp only [List.mem_singleton] at h2
            subst h2
            exact Or.inr (List.getElem?_mem hp)
        · exact Or.inr h1

theorem importanceResampler_ok {α : Type} (weights : List K) (particles : List α)
    (point_num : Nat) (r : K) (out : List α)
    (h : importanceResampler weights particles point_num r = .ok out) :
    out.length = point_num ∧ ∀ p, p ∈ out → p ∈ particles := by
  unfold importanceResampler at h
  split at h
  · exact absurd h (by simp)
  · obtain ⟨hl, hm⟩ := resampleLoop_ok weights particles point_num r _ _ _ _ _ _ h
    refine ⟨by simpa using hl, fun p hp => ?_⟩
    rcases hm p hp with h1 | h1
    · simp at h1
    · exact h1

/-- The resampler on a weight vector whose total reaches the last threshold: it ends without a
fault and slot `m` holds the particle at the first index that reaches `threshold m`. -/
theorem importanceResampler_spec {α : Type} (weights : List K) (particles : List α) (N : Nat)
    (r : K) (hN : 1 ≤ N) (hw : weights.length = N) (hp : particles.length = N)
    (htop : threshold N r N ≤ weights.sum) :
    ∃ out, importanceResampler weights particles N r = .ok out ∧ out.length = N ∧
      ∀ m, 1 ≤ m → m ≤ N → ∃ i, i < N ∧ out[m - 1]? = particles[i]? ∧
        IsFirstReach weights (threshold N r m) i := by
  obtain ⟨c, hc⟩ : ∃ c, weights.head? = some c := by
    cases weights with
    | nil => simp at hw; omega
    | cons a t => exact ⟨a, rfl⟩
  obtain ⟨out, hout, hlen, _, hslots⟩ :=
    resampleLoop_spec weights particles N r (by omega) htop N 1 0 [] (by omega) (by omega)
      (fun l hl => absurd hl (by omega))
  refine ⟨out, ?_, by simpa using hlen, fun m h1 h2 => ?_⟩
  · unfold importanceResampler
    rw [hc]
    simp only
    rw [← cumWeight_zero weights c hc]
    exact hout
  · obtain ⟨j, hj, hget, hf⟩ := hslots (m - 1) (by omega)
    refine ⟨j, by omega, by simpa using hget, ?_⟩
    have : 1 + (m - 1) = m := by omega
    rw [this] at hf
    exact hf

/-- With weights of total 1 and an offset below `1 / N`, the last threshold is below the total. -/
theorem threshold_le_sum (weights : List K) (N : Nat) (r : K) (hN : 1 ≤ N)
    (hsum : weights.sum = 1) (hr : r < 1 / (N : K)) : threshold N r N ≤ weights.sum := by
  have hpos : (0 : K) < (N : K) := by exact_mod_cast hN
  have h1 : ((N : K) - 1) / (N : K) = 1 - 1 / (N : K) := by field_simp
  unfold threshold
  rw [hsum, h1]
  linarith

theorem whileAdvance_of_le (weights : List K) (u c : K) (i : Nat) (h : u ≤ c) :
    whileAdvance weights u c i = .ok (c, i) := by
  rw [whileAdvance]
  simp [not_lt.mpr h]

end ResamplerLemmas

section WeightLemmas

variable {K : Type} [LinearOrderedField K]

variable [FloorRing K]

/-- What `filtering` returns is a population of `point_num` particles, each of them an element
of the population it was given. -/
theorem filtering_ok (occupancy : Int → Int → Nat) (point_num : Nat) (act_range : List K)
    (ranges : Nat → List K) (r : K) (particles out : List (K × K))
    (h : filtering occupancy point_num act_range ranges r particles = .ok out) :
    out.length = point_num ∧ ∀ p, p ∈ out → p ∈ particles := by
  unfold filtering at h
  split at h
  · exact absurd h (by simp)
  · split at h
    · exact absurd h (by simp)
    · exact importanceResampler_ok _ _ _ _ _ h

end WeightLemmas

section PopulationTermination

variable {K : Type} [LinearOrderedField K]

/-- The rejection loop ends as soon as the random draws contain enough positions on non-zero
cells. -/
theorem initLoop_total (src : Int → Int → Nat) (point_num : Nat) :
    ∀ (draws : List (Int × Int)) (pt_num : Nat) (particles : List (K × K)),
      point_num ≤ pt_num + (draws.filter (fun d => decide (src d.2 d.1 > 0))).length →
      ∃ out, initLoop src point_num draws pt_num particles = .ok out := by
  intro draws
  induction draws with
  | nil =>
    intro pt_num particles h
    simp only [List.filter_nil, List.length_nil, Nat.add_zero] at h
    exact ⟨particles, by rw [initLoop, if_neg (by omega)]⟩
  | cons d draws ih =>
    intro pt_num particles h
    obtain ⟨x, y⟩ := d
    rw [initLoop]
    by_cases hlt : pt_num < point_num
    · rw [if_pos hlt]
      by_cases hsrc : src y x > 0
      · rw [if_pos hsrc]
        apply ih
        simp only [List.filter_cons, hsrc, decide_True, if_true, List.length_cons] at h
        omega
      · rw [if_neg hsrc]
        apply ih
        simp only [List.filter_cons, hsrc, decide_False] at h
        simpa using h
    · rw [if_neg hlt]
      exact ⟨particles, rfl⟩

end PopulationTermination

section PopulationLemmas

variable {K : Type} [LinearOrderedField K] [FloorRing K]

theorem toInt_intCast (x : Int) : toInt ((x : K)) = x := by
  unfold toInt
  split <;> simp

/-- Invariant of the rejection loop: it only appends positions whose cell in `src` is non-zero,
and it stops with `point_num` particles. -/
theorem initLoop_ok (src : Int → Int → Nat) (point_num : Nat) :
    ∀ (draws : List (Int × Int)) (pt_num : Nat) (particles out : List (K × K)),
      initLoop src point_num draws pt_num particles = .ok out →
      particles.length = pt_num → pt_num ≤ point_num →
      (∀ p, p ∈ particles → 0 < src (toInt p.2) (toInt p.1)) →
      out.length = point_num ∧ ∀ p, p ∈ out → 0 < src (toInt p.2) (toInt p.1) := by
  intro draws
  induction draws with
  | nil =>
    intro pt_num particles out h hl hle hall
    rw [initLoop] at h
    split at h
    · exact absurd h (by simp)
    · simp only [Except.ok.injEq] at h
      subst h
      exact ⟨by omega, hall⟩
  | cons d draws ih =>
    intro pt_num particles out h hl hle hall
    obtain ⟨x, y⟩ := d
    rw [initLoop] at h
    split at h
    · split at h
      · rename_i hsrc
        refine ih _ _ _ h (by simp; omega) (by omega) (fun p hp => ?_)
        rcases List.mem_append.mp hp with h1 | h1
        · exact hall p h1
        · simp only [List.mem_singleton] at h1
          subst h1
          simpa [toInt_intCast] using hsrc
      · exact ih _ _ _ h hl hle hall
    · simp only [Except.ok.injEq] at h
      subst h
      exact ⟨by omega, hall⟩

end PopulationLemmas


section FilterClaims

variable {K : Type} [LinearOrderedField K] [FloorRing K]

/-- C3 as stated fails after a resample.  On a raster whose only free cell is `(40, 40)`,
`particleInitialize` with one particle puts it there; `particleUpdate` with the displacement
`(1, 0)` and no noise moves it to the blocked cell `(41, 40)`; `filtering` gives it the weight
`1e-4`, normalised to 1, and the resampler selects it: the population after the resample is a
particle on a blocked cell. -/
theorem filtering_traversable_counterexample :
    particleInitialize (fun row col => if row = 40 ∧ col = 40 then 255 else 0) 1 [(40, 40)]
        = .ok ([(40, 40)] : List (ℚ × ℚ)) ∧
      particleUpdate (fun _ mx my => (mx, my)) (1 : ℚ) 0 [(40, 40)] = [(41, 40)] ∧
      filtering (fun row col => if row = 40 ∧ col = 40 then 255 else 0) 1 ([7] : List ℚ)
        (fun _ => [7]) (0 : ℚ) [(41, 40)] = .ok [(41, 40)] ∧
      (fun (row col : Int) => if row = 40 ∧ col = 40 then 255 else 0)
        (toInt (40 : ℚ)) (toInt (41 : ℚ)) = 0 := by
  refine ⟨?_, ?_, ?_, ?_⟩
  · simp [particleInitialize, initLoop]
  · simp [particleUpdate, updateLoop]
    norm_num
  · have h41 : toInt (41 : ℚ) = 41 := by simpa using @toInt_intCast ℚ _ _ 41
    have h40 : toInt (40 : ℚ) = 40 := by simpa using @toInt_intCast ℚ _ _ 40
    simp only [filtering, computeWeights, weightLoop, particleWeight, h41, h40]
    norm_num [normalize, importanceResampler, resampleLoop]
    rw [whileAdvance_of_le _ _ _ _ (by norm_num)]
    simp
  · have h41 : toInt (41 : ℚ) = 41 := by simpa using @toInt_intCast ℚ _ _ 41
    have h40 : toInt (40 : ℚ) = 40 := by simpa using @toInt_intCast ℚ _ _ 40
    simp [h41, h40]

/-- C3 (amended): right after `particleInitialize` the population has `point_num` particles, each
on a cell of the raster given to `particleInitialize` that is traversable (non-zero); a resample
performed by `filtering` yields `point_num` particles, each a copy of a particle of the population
`filtering` was called on (so a particle is on a traversable cell after the resample exactly when
the particle it copies was). -/
theorem filtering_traversable (src occupancy : Int → Int → Nat) (point_num : Nat)
    (draws : List (Int × Int)) (act_range : List K) (ranges : Nat → List K) (r : K)
    (initial particles resampled : List (K × K))
    (hinit : particleInitialize src point_num draws = .ok initial)
    (hfilt : filtering occupancy point_num act_range ranges r particles = .ok resampled) :
    (initial.length = point_num ∧ ∀ p, p ∈ initial → 0 < src (toInt p.2) (toInt p.1)) ∧
      (resampled.length = point_num ∧ ∀ p, p ∈ resampled → p ∈ particles) :=
  ⟨initLoop_ok src point_num draws 0 [] initial hinit rfl (Nat.zero_le _)
      (fun p hp => absurd hp (List.not_mem_nil p)),
    filtering_ok occupancy point_num act_range ranges r particles resampled hfilt⟩

/-- Witness of C3 (amended): one particle initialised on the free cell `(40, 40)` and resampled
there. -/
theorem filtering_traversable_witness :
    (([(40, 40)] : List (ℚ × ℚ)).length = 1 ∧ ∀ p, p ∈ ([(40, 40)] : List (ℚ × ℚ)) →
        0 < (fun (row col : Int) => if row = 40 ∧ col = 40 then 255 else 0)
          (toInt p.2) (toInt p.1)) ∧
      (([(40, 40)] : List (ℚ × ℚ)).length = 1 ∧
        ∀ p, p ∈ ([(40, 40)] : List (ℚ × ℚ)) → p ∈ ([(40, 40)] : List (ℚ × ℚ))) :=
  filtering_traversable (fun row col => if row = 40 ∧ col = 40 then 255 else 0)
    (fun row col => if row = 40 ∧ col = 40 then 255 else 0) 1 [(2, 3), (40, 40)]
    ([7, 8] : List ℚ) (fun _ => [7, 9]) (1/2 : ℚ) [(40, 40)] [(40, 40)] [(40, 40)]
    (by simp [particleInitialize, initLoop])
    (by
      have h40 : toInt (40 : ℚ) = 40 := by simpa using @toInt_intCast ℚ _ _ 40
      simp only [filtering, computeWeights, weightLoop, particleWeight, h40]
      norm_num [normalize, importanceResampler, resampleLoop, probaComputation, sumAbsDiff]
      rw [whileAdvance_of_le _ _ _ _ (by norm_num)]
      simp)

end FilterClaims


section ScannerLemmas

theorem mem_forRange (lo hi i : Int) : i ∈ forRange lo hi ↔ lo ≤ i ∧ i < hi := by
  unfold forRange
  simp only [List.mem_map, List.mem_range]
  constructor
  · rintro ⟨k, hk, rfl⟩
    have := Int.lt_toNat.mp hk
    omega
  · rintro ⟨h1, h2⟩
    refine ⟨(i - lo).toNat, ?_, ?_⟩
    · apply Int.lt_toNat.mpr
      rw [Int.toNat_of_nonneg (by omega)]
      omega
    · rw [Int.toNat_of_nonneg (by omega)]
      omega

variable {K : Type}

/-- Assignments which all fall inside the vector and store `f i` at index `i` are carried out
without a fault; afterwards the written entries hold `f i` and the others are unchanged. -/
theorem storeAll_spec (f : Int → K) :
    ∀ (ws : List (Int × K)) (range : List K),
      (∀ w, w ∈ ws → 0 ≤ w.1 ∧ w.1 < (range.length : Int)) →
      (∀ w, w ∈ ws → w.2 = f w.1) →
      ∃ range', storeAll range ws = .ok range' ∧ range'.length = range.length ∧
        ∀ j : Nat, range'[j]? =
          if (j : Int) ∈ ws.map Prod.fst then some (f (j : Int)) else range[j]? := by
  intro ws
  induction ws with
  | nil =>
    intro range _ _
    exact ⟨range, rfl, rfl, fun j => by simp⟩
  | cons w ws ih =>
    intro range hin hval
    obtain ⟨h0, h1⟩ := hin w (List.mem_cons_self _ _)
    have hv := hval w (List.mem_cons_self _ _)
    obtain ⟨range', hr, hl, hget⟩ := ih (range.set w.1.toNat w.2)
      (fun v hv => by
        have := hin v (List.mem_cons_of_mem _ hv)
        simpa using this)
      (fun v hv => hval v (List.mem_cons_of_mem _ hv))
    refine ⟨range', ?_, by rw [hl]; simp, fun j => ?_⟩
    · rw [storeAll, store, if_pos ⟨h0, h1⟩]
      exact hr
    · rw [hget j]
      simp only [List.map_cons, List.mem_cons]
      by_cases hj : (j : Int) ∈ ws.map Prod.fst
      · simp [hj]
      · simp only [hj, if_false, or_false]
        by_cases hjw : (j : Int) = w.1
        · have hjn : w.1.toNat = j := by omega
          rw [if_pos hjw, ← hjn, List.getElem?_set_self (by omega), hv]
          congr 2
          omega
        · rw [if_neg hjw, List.getElem?_set_ne (by omega)]

variable [LinearOrderedField K]

/-- The indices written by `edgeIntersect`: the interval `[id_start, id_end]` when it is not
empty, nothing when `id_start = id_end + 1`, and otherwise `[id_start, ray_num)` together with
`[0, id_end]`. -/
theorem mem_rayWrites_index (rayNorm : Edge K → K → K × K → K) (M_PI angle_incre : K)
    (ray_num : Int) (eg : Edge K) (obs : K × K) (id_start id_end i : Int) :
    i ∈ (rayWrites rayNorm M_PI angle_incre ray_num eg obs id_start id_end).map Prod.fst ↔
      (id_start ≤ id_end ∧ id_start ≤ i ∧ i ≤ id_end) ∨
      (id_end + 1 < id_start ∧ ((id_start ≤ i ∧ i < ray_num) ∨ (0 ≤ i ∧ i ≤ id_end))) := by
  unfold rayWrites
  split
  · simp only [List.map_nil, List.not_mem_nil, false_iff]
    omega
  · split
    · simp only [List.map_append, List.map_map, List.mem_append, List.mem_map,
        Function.comp_apply, rayWrite, mem_forRange]
      constructor
      · rintro (⟨k, hk, rfl⟩ | ⟨k, hk, rfl⟩) <;> omega
      · rintro (h | ⟨_, h | h⟩)
        · omega
        · exact Or.inl ⟨i, h, rfl⟩
        · exact Or.inr ⟨i, by omega, rfl⟩
    · simp only [List.map_map, List.mem_map, Function.comp_apply, rayWrite, mem_forRange]
      constructor
      · rintro ⟨k, hk, rfl⟩
        omega
      · rintro (h | h)
        · exact ⟨i, by omega, rfl⟩
        · omega

/-- Every assignment of `edgeIntersect` stores the norm of the intersection with the ray of the
written bucket. -/
theorem rayWrites_value (rayNorm : Edge K → K → K × K → K) (M_PI angle_incre : K)
    (ray_num : Int) (eg : Edge K) (obs : K × K) (id_start id_end : Int) (w : Int × K)
    (hw : w ∈ rayWrites rayNorm M_PI angle_incre ray_num eg obs id_start id_end) :
    w.2 = rayNorm eg (angle_incre * (w.1 : K) - M_PI) obs := by
  unfold rayWrites at hw
  split at hw
  · simp at hw
  · split at hw
    · simp only [List.mem_append, List.mem_map] at hw
      rcases hw with ⟨k, _, rfl⟩ | ⟨k, _, rfl⟩ <;> rfl
    · simp only [List.mem_map] at hw
      obtain ⟨k, _, rfl⟩ := hw
      rfl

end ScannerLemmas

section ScannerLength

variable {K : Type}

theorem store_length (range range' : List K) (w : Int × K) (h : store range w = .ok range') :
    range'.length = range.length := by
  unfold store at h
  split at h
  · simp only [Except.ok.injEq] at h
    subst h
    simp
  · exact absurd h (by simp)

theorem storeAll_length :
    ∀ (ws : List (Int × K)) (range range' : List K),
      storeAll range ws = .ok range' → range'.length = range.length := by
  intro ws
  induction ws with
  | nil =>
    intro range range' h
    simp only [storeAll, Except.ok.injEq] at h
    subst h
    rfl
  | cons w ws ih =>
    intro range range' h
    rw [storeAll] at h
    split at h
    · exact absurd h (by simp)
    · rename_i r1 h1
      rw [ih _ _ h, store_length _ _ _ h1]

variable [LinearOrderedField K]

theorem perturbLoop_length (gaussian : Nat → K) :
    ∀ (range : List K) (n : Nat), (perturbLoop gaussian n range).length = range.length := by
  intro range
  induction range with
  | nil => intro n; rfl
  | cons a t ih => intro n; simp [perturbLoop, ih]

variable [FloorRing K]

theorem edgeIntersect_length (rayNorm : Edge K → K → K × K → K) (M_PI angle_incre : K)
    (ray_num : Int) (eg : Edge K) (obs : K × K) (range range' : List K)
    (h : edgeIntersect rayNorm M_PI angle_incre ray_num eg obs range = .ok range') :
    range'.length = range.length := by
  unfold edgeIntersect at h
  split at h
  · exact absurd h (by simp)
  · exact storeAll_length _ _ _ h

/-- Every range vector that `filtering` computes has `ray_num` entries. -/
theorem scanRange_length (rayNorm : Edge K → K → K × K → K) (M_PI angle_incre : K)
    (ray_num : Int) (gaussian : Nat → K) (edges : List (Edge K)) (obs : K × K) (range : List K)
    (h : scanRange rayNorm M_PI angle_incre ray_num gaussian edges obs = .ok range) :
    range.length = ray_num.toNat := by
  have hcast : ∀ (edges : List (Edge K)) (r0 r1 : List K),
      castRays rayNorm M_PI angle_incre ray_num obs edges r0 = .ok r1 →
        r1.length = r0.length := by
    intro edges
    induction edges with
    | nil =>
      intro r0 r1 h
      simp only [castRays, Except.ok.injEq] at h
      subst h
      rfl
    | cons eg edges ih =>
      intro r0 r1 h
      rw [castRays] at h
      split at h
      · exact absurd h (by simp)
      · rename_i r2 h2
        rw [ih _ _ h, edgeIntersect_length _ _ _ _ _ _ _ _ h2]
  unfold scanRange at h
  split at h
  · exact absurd h (by simp)
  · rename_i r1 h1
    simp only [Except.ok.injEq] at h
    subst h
    rw [scanPerturb, perturbLoop_length, hcast _ _ _ h1]
    simp

end ScannerLength

section ScannerBounds

variable {K : Type} [LinearOrderedField K] [FloorRing K]

/-- For edge angles in `(-M_PI, M_PI]` every written index lies in `0 .. ray_num`, so that the
only index `edgeIntersect` can write outside the range vector is `ray_num` itself. -/
theorem rayWrites_index_le_rayNum (rayNorm : Edge K → K → K × K → K) (M_PI angle_incre : K)
    (eg : Edge K) (obs : K × K) (ray_num id_start id_end : Int) (hpi : 0 < M_PI)
    (hinc : 0 < angle_incre)
    (hray : rayNum M_PI angle_incre = .ok ray_num)
    (hids : bucketIds M_PI angle_incre eg = .ok (id_start, id_end))
    (hs : -M_PI < eg.angle_start) (he : eg.angle_end ≤ M_PI) (i : Int)
    (hi : i ∈ (rayWrites rayNorm M_PI angle_incre ray_num eg obs id_start id_end).map Prod.fst) :
    0 ≤ i ∧ i ≤ ray_num := by
  have hne : angle_incre ≠ 0 := ne_of_gt hinc
  unfold bucketIds at hids
  rw [if_neg hne] at hids
  simp only [Except.ok.injEq, Prod.mk.injEq] at hids
  obtain ⟨h1, h2⟩ := hids
  have hstart : 0 ≤ id_start := by
    rw [← h1]
    apply Int.ceil_nonneg
    apply div_nonneg _ hinc.le
    linarith
  have hx : eg.angle_end + M_PI ≤ 2 * M_PI := by linarith
  have hend : id_end ≤ ⌊2 * M_PI / angle_incre + 1 / 2⌋ := by
    rw [← h2]
    apply Int.floor_le_floor
    have := div_le_div_of_nonneg_right hx hinc.le
    linarith
  rw [mem_rayWrites_index] at hi
  by_cases hpos : 0 ≤ 2 * M_PI / angle_incre
  · unfold rayNum roundToInt at hray
    rw [if_neg hne, if_pos hpos] at hray
    simp only [Except.ok.injEq] at hray
    rw [hray] at hend
    omega
  · exfalso
    apply hpos
    apply div_nonneg _ hinc.le
    linarith

end ScannerBounds

section ScannerClaims

variable {K : Type} [LinearOrderedField K] [FloorRing K]

/-- C9 (amended): an edge with `id_start == id_end + 1` is silently skipped: `edgeIntersect`
performs no assignment, returns without a fault and leaves the range vector unchanged. -/
theorem edgeIntersect_skip (rayNorm : Edge K → K → K × K → K) (M_PI angle_incre : K)
    (ray_num : Int) (eg : Edge K) (obs : K × K) (range : List K) (id_start id_end : Int)
    (hids : bucketIds M_PI angle_incre eg = .ok (id_start, id_end))
    (hskip : id_start = id_end + 1) :
    rayWrites rayNorm M_PI angle_incre ray_num eg obs id_start id_end = [] ∧
      edgeIntersect rayNorm M_PI angle_incre ray_num eg obs range = .ok range := by
  have h : rayWrites rayNorm M_PI angle_incre ray_num eg obs id_start id_end = [] := by
    unfold rayWrites
    rw [if_pos hskip]
  refine ⟨h, ?_⟩
  unfold edgeIntersect
  rw [hids]
  simp only [h, storeAll]

end ScannerClaims

section ScannerExamples

theorem M_PI_double_pos : (0 : ℚ) < M_PI_double := by
  unfold M_PI_double
  norm_num

/-- With `angle_incre = M_PI / 2` the angle `a * M_PI` falls at position `2 * (a + 1)`. -/
theorem bucket_quotient (a : ℚ) :
    (a * M_PI_double + M_PI_double) / (M_PI_double / 2) = 2 * (a + 1) := by
  have := M_PI_double_pos
  field_simp
  ring

/-- The bucket indices, for `angle_incre = M_PI / 2`, of an edge from `a * M_PI` to
`b * M_PI`. -/
theorem bucketIds_half_pi (a b : ℚ) :
    bucketIds M_PI_double (M_PI_double / 2) ⟨a * M_PI_double, b * M_PI_double⟩
      = .ok (⌈2 * (a + 1)⌉, ⌊2 * (b + 1)⌋) := by
  have := M_PI_double_pos
  unfold bucketIds
  rw [if_neg (by positivity), bucket_quotient, bucket_quotient]

theorem rayNum_half_pi : rayNum M_PI_double (M_PI_double / 2) = .ok 4 := by
  have := M_PI_double_pos
  have h : 2 * M_PI_double / (M_PI_double / 2) = 4 := by field_simp; ring
  unfold rayNum roundToInt
  rw [if_neg (by positivity), h]
  norm_num

end ScannerExamples

section ScannerClaimExamples

/-- C9 as stated fails for a negative span.  For `angle_incre = M_PI / 2` and four buckets, the
edge from `M_PI` to `-M_PI / 2` has `id_start = 4` and `id_end = 1`: no bucket index lies
between them, yet the edge is not skipped but handled as a wraparound edge, and the buckets
0 and 1 are overwritten. -/
theorem edgeIntersect_skip_counterexample :
    bucketIds M_PI_double (M_PI_double / 2) ⟨1 * M_PI_double, (-1 / 2) * M_PI_double⟩
        = .ok (4, 1) ∧
      edgeIntersect (fun _ _ _ => 5) M_PI_double (M_PI_double / 2) 4
        ⟨1 * M_PI_double, (-1 / 2) * M_PI_double⟩ ((0, 0) : ℚ × ℚ) [-1, -1, -1, -1]
          = .ok [5, 5, -1, -1] := by
  have hids : bucketIds M_PI_double (M_PI_double / 2)
      ⟨1 * M_PI_double, (-1 / 2) * M_PI_double⟩ = .ok (4, 1) := by
    rw [bucketIds_half_pi]
    norm_num
  refine ⟨hids, ?_⟩
  unfold edgeIntersect
  rw [hids]
  simp [rayWrites, forRange, rayWrite, storeAll, store, List.range_succ]

/-- Witness of C9 (amended): for `angle_incre = M_PI / 2`, the thin edge from `M_PI / 8` to
`M_PI / 4` has `id_start = 3 = id_end + 1`. -/
theorem edgeIntersect_skip_witness :
    rayWrites (fun _ _ _ => 5) M_PI_double (M_PI_double / 2) 4
        ⟨(1 / 8) * M_PI_double, (1 / 4) * M_PI_double⟩ ((0, 0) : ℚ × ℚ) 3 2 = [] ∧
      edgeIntersect (fun _ _ _ => 5) M_PI_double (M_PI_double / 2) 4
        ⟨(1 / 8) * M_PI_double, (1 / 4) * M_PI_double⟩ ((0, 0) : ℚ × ℚ) [-1, -1, -1, -1]
          = .ok [-1, -1, -1, -1] :=
  edgeIntersect_skip (fun _ _ _ => 5) M_PI_double (M_PI_double / 2) 4
    ⟨(1 / 8) * M_PI_double, (1 / 4) * M_PI_double⟩ ((0, 0) : ℚ × ℚ) [-1, -1, -1, -1] 3 2
    (by
      rw [bucketIds_half_pi]
      have h1 : ⌈(2 : ℚ) * (1 / 8 + 1)⌉ = 3 := by
        rw [Int.ceil_eq_iff]; norm_num
      have h2 : ⌊(2 : ℚ) * (1 / 4 + 1)⌋ = 2 := by
        rw [Int.floor_eq_iff]; norm_num
      rw [h1, h2])
    (by norm_num)

/-- C10 fails on the code at `angle_end = M_PI`.  For `angle_incre = M_PI / 2 > 0` the constructor
sets `ray_num = 4`; the edge from angle `0` to angle `M_PI`, both in `(-M_PI, M_PI]`, has
`id_start = 2` and `id_end = 4`, and the loop `for (i = id_start; i <= id_end; i++)` writes
`range[4]`, one past the end of the range vector of `ray_num = 4` entries. -/
theorem edgeIntersect_index_overrun :
    (0 : ℚ) < M_PI_double / 2 ∧
      (-M_PI_double < 0 * M_PI_double ∧ 0 * M_PI_double ≤ M_PI_double) ∧
      (-M_PI_double < 1 * M_PI_double ∧ 1 * M_PI_double ≤ M_PI_double) ∧
      rayNum M_PI_double (M_PI_double / 2) = .ok 4 ∧
      bucketIds M_PI_double (M_PI_double / 2) ⟨0 * M_PI_double, 1 * M_PI_double⟩ = .ok (2, 4) ∧
      (4 : Int) ∈ (rayWrites (fun _ _ _ => 5) M_PI_double (M_PI_double / 2) 4
        ⟨0 * M_PI_double, 1 * M_PI_double⟩ ((0, 0) : ℚ × ℚ) 2 4).map Prod.fst ∧
      edgeIntersect (fun _ _ _ => 5) M_PI_double (M_PI_double / 2) 4
        ⟨0 * M_PI_double, 1 * M_PI_double⟩ ((0, 0) : ℚ × ℚ) (List.replicate 4 (-1))
          = .error (.rangeIndex 4) := by
  have hids : bucketIds M_PI_double (M_PI_double / 2) ⟨0 * M_PI_double, 1 * M_PI_double⟩
      = .ok (2, 4) := by
    rw [bucketIds_half_pi]
    norm_num
  have hpi := M_PI_double_pos
  refine ⟨by linarith, ⟨by linarith, by linarith⟩, ⟨by linarith, by linarith⟩,
    rayNum_half_pi, hids, ?_, ?_⟩
  · rw [mem_rayWrites_index]
    norm_num
  · unfold edgeIntersect
    rw [hids]
    simp [rayWrites, forRange, rayWrite, storeAll, store, List.range_succ]

end ScannerClaimExamples


section ExpectationLemmas

variable {K : Type} [LinearOrderedField K]

theorem IsFirstReach_unique (weights : List K) (u : K) (i j : Nat)
    (hi : IsFirstReach weights u i) (hj : IsFirstReach weights u j) : i = j := by
  rcases Nat.lt_trichotomy i j with h | h | h
  · exact absurd (hj.2 i h) (not_lt.mpr hi.1)
  · exact h
  · exact absurd (hi.2 j h) (not_lt.mpr hj.1)

theorem cumWeight_le_succ (weights : List K) (hnn : ∀ w, w ∈ weights → 0 ≤ w) (i : Nat) :
    cumWeight weights i ≤ cumWeight weights (i + 1) := by
  by_cases h : i + 1 < weights.length
  · rw [cumWeight_succ weights i h]
    have := hnn _ (List.getElem_mem h)
    linarith
  · rw [cumWeight_of_length_le weights i (by omega),
      cumWeight_of_length_le weights (i + 1) (by omega)]

theorem cumWeight_mono (weights : List K) (hnn : ∀ w, w ∈ weights → 0 ≤ w) :
    Monotone (cumWeight weights) :=
  monotone_nat_of_le_succ (cumWeight_le_succ weights hnn)

theorem cumWeight_le_sum (weights : List K) (hnn : ∀ w, w ∈ weights → 0 ≤ w) (i : Nat) :
    cumWeight weights i ≤ weights.sum := by
  rw [← cumWeight_of_length_le weights (max i weights.length) (by omega)]
  exact cumWeight_mono weights hnn (le_max_left _ _)

theorem cumWeight_nonneg (weights : List K) (hnn : ∀ w, w ∈ weights → 0 ≤ w) (i : Nat) :
    0 ≤ cumWeight weights i :=
  List.sum_nonneg (fun w hw => hnn w (List.mem_of_mem_take hw))

theorem cumWeight_sub_cumBefore (weights : List K) (i : Nat) (hi : i < weights.length) :
    cumWeight weights i - cumBefore weights i = weights[i] := by
  cases i with
  | zero =>
    cases weights with
    | nil => simp at hi
    | cons a t => simp [cumBefore, cumWeight]
  | succ k =>
    rw [cumBefore, cumWeight_succ weights k hi]
    ring

theorem cumBefore_le (weights : List K) (hnn : ∀ w, w ∈ weights → 0 ≤ w) (i : Nat) :
    0 ≤ cumBefore weights i ∧ cumBefore weights i ≤ cumWeight weights i := by
  cases i with
  | zero => exact ⟨le_refl _, cumWeight_nonneg weights hnn 0⟩
  | succ k => exact ⟨cumWeight_nonneg weights hnn k, cumWeight_le_succ weights hnn k⟩

/-- With non-negative weights, a positive threshold selects index `i` exactly when it lies in the
interval `(cumBefore i, cumWeight i]`. -/
theorem IsFirstReach_iff (weights : List K) (hnn : ∀ w, w ∈ weights → 0 ≤ w) (u : K)
    (hu : 0 < u) (i : Nat) :
    IsFirstReach weights u i ↔ cumBefore weights i < u ∧ u ≤ cumWeight weights i := by
  unfold IsFirstReach
  cases i with
  | zero =>
    simp only [cumBefore, hu, true_and]
    exact ⟨fun h => h.1, fun h => ⟨h, fun j hj => absurd hj (by omega)⟩⟩
  | succ k =>
    simp only [cumBefore]
    constructor
    · rintro ⟨h1, h2⟩
      exact ⟨h2 k (by omega), h1⟩
    · rintro ⟨h1, h2⟩
      exact ⟨h2, fun j hj => lt_of_le_of_lt (cumWeight_mono weights hnn (by omega)) h1⟩

/-- The number of occurrences of `i` in a list, as a sum over the positions of the list. -/
theorem count_eq_sum (l : List Nat) (i : Nat) :
    l.count i = ∑ s in Finset.range l.length, if l[s]? = some i then 1 else 0 := by
  induction l with
  | nil => simp
  | cons a t ih =>
    rw [List.length_cons, Finset.sum_range_succ', List.count_cons, ih]
    simp only [List.getElem?_cons_succ, List.getElem?_cons_zero, Option.some.injEq, beq_iff_eq]

/-- The selection count as a sum over the output slots: slot `s + 1` counts when its threshold
`r + s / N` selects index `i`. -/
theorem selectionCount_eq_sum (weights : List K) (N i : Nat) (r : K) (hN : 1 ≤ N)
    (hw : weights.length = N) (htop : threshold N r N ≤ weights.sum)
    (p : K → Prop) [DecidablePred p]
    (hp : ∀ s, s < N → (p (r + (s : K) / (N : K)) ↔
      IsFirstReach weights (r + (s : K) / (N : K)) i)) :
    selectionCount weights N r i =
      ∑ s in Finset.range N, if p (r + (s : K) / (N : K)) then 1 else 0 := by
  obtain ⟨out, hout, hlen, hslots⟩ :=
    importanceResampler_spec weights (List.range N) N r hN hw (by simp) htop
  unfold selectionCount
  rw [hout]
  simp only
  rw [count_eq_sum, hlen]
  apply Finset.sum_congr rfl
  intro s hs
  have hs' : s < N := Finset.mem_range.mp hs
  obtain ⟨j, hj, hget, hf⟩ := hslots (s + 1) (by omega) (by omega)
  have hth : threshold N r (s + 1) = r + (s : K) / (N : K) := by
    unfold threshold
    push_cast
    ring
  rw [hth] at hf
  rw [Nat.add_sub_cancel, List.getElem?_range hj] at hget
  rw [hget]
  by_cases hji : j = i
  · subst hji
    rw [if_pos rfl, if_pos ((hp s hs').mpr hf)]
  · rw [if_neg (by simpa using hji), if_neg]
    intro hps
    exact hji (IsFirstReach_unique weights _ j i hf ((hp s hs').mp hps))

end ExpectationLemmas

section Expectation

open MeasureTheory

/-- The indicator of a bounded interval of thresholds is integrable. -/
theorem indicator_integrable (L U : ℝ) :
    Integrable (Set.indicator (Set.Ioc L U) (fun _ => (1 : ℝ))) volume := by
  rw [integrable_indicator_iff measurableSet_Ioc]
  exact integrableOn_const.mpr (Or.inr (by simp))

/-- The integral over `[0, 1]` of the indicator of a subinterval `(L, U]` is its length. -/
theorem integral_indicator_Ioc (L U : ℝ) (hL : 0 ≤ L) (hLU : L ≤ U) (hU : U ≤ 1) :
    ∫ x in (0 : ℝ)..1, Set.indicator (Set.Ioc L U) (fun _ => (1 : ℝ)) x = U - L := by
  rw [intervalIntegral.integral_of_le zero_le_one, setIntegral_indicator measurableSet_Ioc,
    Set.Ioc_inter_Ioc, sup_of_le_right hL, inf_of_le_right hU, setIntegral_const,
    Real.volume_Ioc, ENNReal.toReal_ofReal (by linarith)]
  simp

/-- Systematic resampling cuts `[0, 1)` into `N` pieces of length `1 / N` and applies one offset
to all of them: the integral over the offset of the number of thresholds that fall into `(L, U]`
is the length of `(L, U]`. -/
theorem integral_sum_shift (L U : ℝ) (hL : 0 ≤ L) (hLU : L ≤ U) (hU : U ≤ 1) (N : Nat)
    (hN : 1 ≤ N) :
    ∫ r in (0 : ℝ)..(1 / (N : ℝ)), ∑ s in Finset.range N,
        Set.indicator (Set.Ioc L U) (fun _ => (1 : ℝ)) (r + (s : ℝ) / (N : ℝ)) = U - L := by
  have hpos : (0 : ℝ) < (N : ℝ) := by exact_mod_cast hN
  rw [intervalIntegral.integral_finset_sum
    (fun s _ => ((indicator_integrable L U).comp_add_right _).intervalIntegrable)]
  have hshift : ∀ s ∈ Finset.range N,
      ∫ r in (0 : ℝ)..(1 / (N : ℝ)),
          Set.indicator (Set.Ioc L U) (fun _ => (1 : ℝ)) (r + (s : ℝ) / (N : ℝ)) =
        ∫ x in ((s : ℝ) / (N : ℝ))..(((s + 1 : ℕ) : ℝ) / (N : ℝ)),
          Set.indicator (Set.Ioc L U) (fun _ => (1 : ℝ)) x := by
    intro s _
    rw [intervalIntegral.integral_comp_add_right
      (Set.indicator (Set.Ioc L U) (fun _ => (1 : ℝ))) ((s : ℝ) / (N : ℝ))]
    congr 1
    · ring
    · push_cast; ring
  rw [Finset.sum_congr rfl hshift,
    intervalIntegral.sum_integral_adjacent_intervals
      (fun k _ => (indicator_integrable L U).intervalIntegrable)]
  simp only [Nat.cast_zero, zero_div]
  rw [div_self (ne_of_gt hpos)]
  exact integral_indicator_Ioc L U hL hLU hU

/-- The integral over the offset `r` in `[0, 1/N)` of the number of slots that select index `i`
is `weights[i]`. -/
theorem integral_selectionCount (weights : List ℝ) (N i : Nat) (hN : 1 ≤ N)
    (hw : weights.length = N) (hnn : ∀ w, w ∈ weights → 0 ≤ w) (hsum : weights.sum = 1)
    (hi : i < weights.length) :
    ∫ r in Set.Ico (0 : ℝ) (1 / (N : ℝ)), (selectionCount weights N r i : ℝ) = weights[i] := by
  classical
  have hpos : (0 : ℝ) < (N : ℝ) := by exact_mod_cast hN
  obtain ⟨hL, hLU⟩ := cumBefore_le weights hnn i
  have hU : cumWeight weights i ≤ 1 := hsum ▸ cumWeight_le_sum weights hnn i
  rw [integral_Ico_eq_integral_Ioo]
  have hcongr : Set.EqOn (fun r : ℝ => (selectionCount weights N r i : ℝ))
      (fun r => ∑ s in Finset.range N,
        Set.indicator (Set.Ioc (cumBefore weights i) (cumWeight weights i)) (fun _ => (1 : ℝ))
          (r + (s : ℝ) / (N : ℝ)))
      (Set.Ioo 0 (1 / (N : ℝ))) := by
    intro r hr
    have htop := threshold_le_sum weights N r hN hsum hr.2
    have hp : ∀ s, s < N →
        (r + (s : ℝ) / (N : ℝ) ∈ Set.Ioc (cumBefore weights i) (cumWeight weights i) ↔
          IsFirstReach weights (r + (s : ℝ) / (N : ℝ)) i) := by
      intro s _
      have hu : 0 < r + (s : ℝ) / (N : ℝ) := by
        have : (0 : ℝ) ≤ (s : ℝ) / (N : ℝ) := by positivity
        linarith [hr.1]
      rw [IsFirstReach_iff weights hnn _ hu i]
      exact Iff.rfl
    have h := selectionCount_eq_sum weights N i r hN hw htop
      (fun x => x ∈ Set.Ioc (cumBefore weights i) (cumWeight weights i)) hp
    simp only [h]
    push_cast
    apply Finset.sum_congr rfl
    intro s _
    rw [Set.indicator_apply]
  rw [setIntegral_congr_fun measurableSet_Ioo hcongr, ← integral_Ioc_eq_integral_Ioo,
    ← intervalIntegral.integral_of_le (by positivity),
    integral_sum_shift _ _ hL hLU hU N hN]
  exact cumWeight_sub_cumBefore weights i hi

end Expectation

/-! ## Binary64 arithmetic -/

/-! ### Rounding lemmas -/

theorem roundEven_spec (t : ℚ) :
    |t - (roundEven t : ℚ)| ≤ 1 / 2 ∧
      (|t - (roundEven t : ℚ)| = 1 / 2 → roundEven t % 2 = 0) := by
  have h1 : (⌊t⌋ : ℚ) ≤ t := Int.floor_le t
  have h2 : t < (⌊t⌋ : ℚ) + 1 := Int.lt_floor_add_one t
  unfold roundEven
  split_ifs with ha hb hc
  · refine ⟨by rw [abs_le]; constructor <;> linarith, fun h => ?_⟩
    rw [abs_of_nonneg (by linarith)] at h
    linarith
  · push_cast
    refine ⟨by rw [abs_le]; constructor <;> linarith, fun h => ?_⟩
    rw [abs_of_nonpos (by linarith)] at h
    linarith
  · exact ⟨by rw [abs_le]; constructor <;> linarith, fun _ => hc⟩
  · push_cast
    refine ⟨by rw [abs_le]; constructor <;> linarith, fun _ => ?_⟩
    omega

/-- An integer within less than one half of `t`, or at exactly one half and even, is the rounded
value of `t`. -/
theorem roundEven_eq (t : ℚ) (n : Int)
    (h : |t - (n : ℚ)| < 1 / 2 ∨ (|t - (n : ℚ)| = 1 / 2 ∧ n % 2 = 0)) : roundEven t = n := by
  obtain ⟨hs1, hs2⟩ := roundEven_spec t
  by_contra hne
  have hdiff : (1 : ℚ) ≤ |((roundEven t : ℤ) : ℚ) - (n : ℚ)| := by
    have : (1 : ℤ) ≤ |roundEven t - n| := Int.one_le_abs (sub_ne_zero.mpr hne)
    have h' : ((1 : ℤ) : ℚ) ≤ ((|roundEven t - n| : ℤ) : ℚ) := by exact_mod_cast this
    simpa using h'
  have htri : |((roundEven t : ℤ) : ℚ) - (n : ℚ)| ≤
      |t - (roundEven t : ℚ)| + |t - (n : ℚ)| := by
    have := abs_sub_le ((roundEven t : ℤ) : ℚ) t (n : ℚ)
    rw [abs_sub_comm ((roundEven t : ℤ) : ℚ) t] at this
    exact this
  rcases h with h | ⟨h, hev⟩
  · linarith
  · have hm : |t - (roundEven t : ℚ)| = 1 / 2 := by linarith
    have hpar := hs2 hm
    have hone : |roundEven t - n| = 1 := by
      have hle : ((|roundEven t - n| : ℤ) : ℚ) ≤ 1 := by
        push_cast
        linarith
      have hle' : |roundEven t - n| ≤ 1 := by exact_mod_cast hle
      have hge : (1 : ℤ) ≤ |roundEven t - n| := Int.one_le_abs (sub_ne_zero.mpr hne)
      omega
    rcases abs_eq (by norm_num : (0 : ℤ) ≤ 1) |>.mp hone with h3 | h3 <;> omega

theorem roundEven_intCast (n : Int) : roundEven (n : ℚ) = n :=
  roundEven_eq _ n (Or.inl (by simp))

theorem roundEven_mono {s t : ℚ} (h : s ≤ t) : roundEven s ≤ roundEven t := by
  have hs1 : (⌊s⌋ : ℚ) ≤ s := Int.floor_le s
  have hs2 : s < (⌊s⌋ : ℚ) + 1 := Int.lt_floor_add_one s
  have hf : ⌊s⌋ ≤ ⌊t⌋ := Int.floor_le_floor h
  have hlo : ∀ x : ℚ, ⌊x⌋ ≤ roundEven x := by
    intro x; unfold roundEven; split_ifs <;> omega
  have hhi : ∀ x : ℚ, roundEven x ≤ ⌊x⌋ + 1 := by
    intro x; unfold roundEven; split_ifs <;> omega
  rcases lt_or_eq_of_le hf with hlt | heq
  · calc roundEven s ≤ ⌊s⌋ + 1 := hhi s
      _ ≤ ⌊t⌋ := by omega
      _ ≤ roundEven t := hlo t
  · unfold roundEven
    rw [← heq]
    split_ifs <;> first | omega | (exfalso; linarith)

theorem binade_eq (x : ℚ) (e : ℤ) (hx : x ≠ 0) (he : -1022 ≤ e)
    (hlo : 2 ^ e ≤ |x| ∨ e = -1022) (hhi : |x| < 2 ^ (e + 1)) : binade x = e := by
  have ha : (0 : ℚ) < |x| := abs_pos.mpr hx
  have h2 : (1 : ℕ) < 2 := by norm_num
  have hup : Int.log 2 |x| < e + 1 := by
    rw [← Int.lt_zpow_iff_log_lt h2 ha]
    simpa using hhi
  unfold binade
  rcases hlo with hlo | hlo
  · have hdown : e ≤ Int.log 2 |x| := by
      rw [← Int.zpow_le_iff_le_log h2 ha]
      simpa using hlo
    have : Int.log 2 |x| = e := by omega
    rw [this]
    exact max_eq_left he
  · subst hlo
    exact max_eq_right (by omega)

theorem lt_two_zpow_binade (x : ℚ) : |x| < 2 ^ (binade x + 1) := by
  have h2 : (1 : ℕ) < 2 := by norm_num
  have h := Int.lt_zpow_succ_log_self h2 |x|
  have hle : Int.log 2 |x| + 1 ≤ binade x + 1 := by
    unfold binade
    have := le_max_left (Int.log 2 |x|) (-1022)
    omega
  have hmono : (2 : ℚ) ^ (Int.log 2 |x| + 1) ≤ 2 ^ (binade x + 1) :=
    zpow_le_zpow_right₀ (by norm_num) hle
  have h' : |x| < (2 : ℚ) ^ (Int.log 2 |x| + 1) := by simpa using h
  exact lt_of_lt_of_le h' hmono

theorem two_zpow_binade_le (x : ℚ) (hx : x ≠ 0) (hb : -1022 < binade x) :
    2 ^ binade x ≤ |x| := by
  have h2 : (1 : ℕ) < 2 := by norm_num
  have ha : (0 : ℚ) < |x| := abs_pos.mpr hx
  have hlog : binade x = Int.log 2 |x| := by
    unfold binade at hb ⊢
    rcases max_cases (Int.log 2 |x|) (-1022) with ⟨h, _⟩ | ⟨h, _⟩
    · exact h
    · rw [h] at hb; omega
  rw [hlog]
  simpa using Int.zpow_log_le_self h2 ha

theorem binade_mono {x y : ℚ} (hx : 0 < x) (h : x ≤ y) : binade x ≤ binade y := by
  unfold binade
  have hy : 0 < y := lt_of_lt_of_le hx h
  rw [abs_of_pos hx, abs_of_pos hy]
  exact max_le_max (Int.log_mono_right hx h) (le_refl _)

theorem rne_zero : rne 0 = 0 := by
  simp [rne, roundEven]

theorem rne_nonneg {x : ℚ} (hx : 0 ≤ x) : 0 ≤ rne x := by
  unfold rne
  have hu : (0 : ℚ) < 2 ^ (binade x - 52) := by positivity
  have h0 : roundEven 0 ≤ roundEven (x / 2 ^ (binade x - 52)) :=
    roundEven_mono (div_nonneg hx hu.le)
  have h00 : roundEven 0 = 0 := by simpa using roundEven_intCast 0
  rw [h00] at h0
  have : (0 : ℚ) ≤ (roundEven (x / 2 ^ (binade x - 52)) : ℚ) := by exact_mod_cast h0
  positivity

theorem rne_le_two_zpow {x : ℚ} (hx : 0 < x) : rne x ≤ 2 ^ (binade x + 1) := by
  unfold rne
  have hu : (0 : ℚ) < 2 ^ (binade x - 52) := by positivity
  have hlt := lt_two_zpow_binade x
  rw [abs_of_pos hx] at hlt
  have hsplit : (2 : ℚ) ^ (binade x + 1) = 2 ^ (53 : ℤ) * 2 ^ (binade x - 52) := by
    rw [← zpow_add₀ (by norm_num : (2 : ℚ) ≠ 0)]
    congr 1
    ring
  have h53 : ((2 ^ 53 : ℤ) : ℚ) = (2 : ℚ) ^ (53 : ℤ) := by norm_num
  have hq : x / 2 ^ (binade x - 52) ≤ ((2 ^ 53 : ℤ) : ℚ) := by
    rw [div_le_iff₀ hu, h53, ← hsplit]
    exact hlt.le
  have hr := roundEven_mono hq
  rw [roundEven_intCast] at hr
  have hr' : (roundEven (x / 2 ^ (binade x - 52)) : ℚ) ≤ ((2 ^ 53 : ℤ) : ℚ) := by
    exact_mod_cast hr
  rw [hsplit, ← h53]
  exact mul_le_mul_of_nonneg_right hr' hu.le

theorem two_zpow_le_rne {x : ℚ} (hb : 2 ^ binade x ≤ x) :
    2 ^ binade x ≤ rne x := by
  unfold rne
  have hu : (0 : ℚ) < 2 ^ (binade x - 52) := by positivity
  have hsplit : (2 : ℚ) ^ binade x = 2 ^ (52 : ℤ) * 2 ^ (binade x - 52) := by
    rw [← zpow_add₀ (by norm_num : (2 : ℚ) ≠ 0)]
    congr 1
    ring
  have h52 : ((2 ^ 52 : ℤ) : ℚ) = (2 : ℚ) ^ (52 : ℤ) := by norm_num
  have hq : ((2 ^ 52 : ℤ) : ℚ) ≤ x / 2 ^ (binade x - 52) := by
    rw [le_div_iff₀ hu, h52, ← hsplit]
    exact hb
  have hr := roundEven_mono hq
  rw [roundEven_intCast] at hr
  have hr' : ((2 ^ 52 : ℤ) : ℚ) ≤ (roundEven (x / 2 ^ (binade x - 52)) : ℚ) := by
    exact_mod_cast hr
  rw [hsplit, ← h52]
  exact mul_le_mul_of_nonneg_right hr' hu.le

/-- Rounding to nearest is monotone on the non-negative numbers. -/
theorem rne_mono {x y : ℚ} (hx : 0 ≤ x) (h : x ≤ y) : rne x ≤ rne y := by
  rcases eq_or_lt_of_le hx with h0 | hpos
  · rw [← h0, rne_zero]
    exact rne_nonneg (le_trans hx h)
  · have hy : 0 < y := lt_of_lt_of_le hpos h
    rcases eq_or_lt_of_le (binade_mono hpos h) with heq | hlt
    · unfold rne
      rw [heq]
      have hu : (0 : ℚ) < 2 ^ (binade y - 52) := by positivity
      have hq : x / 2 ^ (binade y - 52) ≤ y / 2 ^ (binade y - 52) :=
        div_le_div_of_nonneg_right h hu.le
      have hr : (roundEven (x / 2 ^ (binade y - 52)) : ℚ) ≤
          (roundEven (y / 2 ^ (binade y - 52)) : ℚ) := by
        exact_mod_cast roundEven_mono hq
      exact mul_le_mul_of_nonneg_right hr hu.le
    · have hby : -1022 < binade y := by
        have : -1022 ≤ binade x := le_max_right _ _
        omega
      have h1 := two_zpow_binade_le y (ne_of_gt hy) hby
      rw [abs_of_pos hy] at h1
      calc rne x ≤ 2 ^ (binade x + 1) := rne_le_two_zpow hpos
        _ ≤ 2 ^ binade y := zpow_le_zpow_right₀ (by norm_num) (by omega)
        _ ≤ rne y := two_zpow_le_rne h1

/-- Evaluation of `rne`: `y = n * 2 ^ (e - 52)` is the rounded value of `x` when `e` is the
binade of `x` and `y` is within half a unit in the last place of `x`, the significand `n` being
even in the halfway case. -/
theorem rne_eq (x y : ℚ) (e n : ℤ) (hx : x ≠ 0) (he : -1022 ≤ e)
    (hlo : 2 ^ e ≤ |x| ∨ e = -1022) (hhi : |x| < 2 ^ (e + 1))
    (hy : y = (n : ℚ) * 2 ^ (e - 52))
    (hn : |x - y| < 2 ^ (e - 53) ∨ (|x - y| = 2 ^ (e - 53) ∧ n % 2 = 0)) : rne x = y := by
  subst hy
  have hu : (0 : ℚ) < 2 ^ (e - 52) := by positivity
  have hhalf : (2 : ℚ) ^ (e - 53) = 1 / 2 * 2 ^ (e - 52) := by
    have : e - 52 = (e - 53) + 1 := by ring
    rw [this, zpow_add_one₀ (by norm_num : (2 : ℚ) ≠ 0)]
    ring
  have hdist : |x / 2 ^ (e - 52) - (n : ℚ)| = |x - (n : ℚ) * 2 ^ (e - 52)| / 2 ^ (e - 52) := by
    have : x / 2 ^ (e - 52) - (n : ℚ) = (x - (n : ℚ) * 2 ^ (e - 52)) / 2 ^ (e - 52) := by
      field_simp
      ring
    rw [this, abs_div, abs_of_pos hu]
  have hr : roundEven (x / 2 ^ (e - 52)) = n := by
    apply roundEven_eq
    rw [hdist]
    rw [hhalf] at hn
    rcases hn with hn | ⟨hn, hpar⟩
    · left
      rw [div_lt_iff₀ hu]
      exact hn
    · right
      refine ⟨?_, hpar⟩
      rw [div_eq_iff (ne_of_gt hu)]
      exact hn
  unfold rne
  rw [binade_eq x e hx he hlo hhi, hr]


/-! ### Order and arithmetic of doubles -/

namespace Dbl

theorem lt_def (a b : Dbl) : a < b ↔ Dbl.lt a b := Iff.rfl

theorem le_def (a b : Dbl) : a ≤ b ↔ Dbl.le a b := Iff.rfl

theorem not_lt_of_le' {a b : Dbl} (h : a ≤ b) : ¬ b < a := by
  cases a <;> cases b <;> simp only [lt_def, le_def, Dbl.lt, Dbl.le, not_false_eq_true] at * <;>
    linarith

theorem le_of_not_lt' {a b : Dbl} (ha : a ≠ nan) (hb : b ≠ nan) (h : ¬ b < a) : a ≤ b := by
  cases a <;> cases b <;> simp [lt_def, le_def, Dbl.lt, Dbl.le] at * <;> linarith

theorem lt_le_trans {a b c : Dbl} (h1 : a < b) (h2 : b ≤ c) : a < c := by
  cases a <;> cases b <;> cases c <;> simp only [lt_def, le_def, Dbl.lt, Dbl.le] at * <;>
    linarith

theorem le_le_trans {a b c : Dbl} (h1 : a ≤ b) (h2 : b ≤ c) : a ≤ c := by
  cases a <;> cases b <;> cases c <;> simp only [lt_def, le_def, Dbl.lt, Dbl.le] at * <;>
    linarith

theorem ne_nan_of_le_left {a b : Dbl} (h : a ≤ b) : a ≠ nan := by
  cases a <;> cases b <;> simp [le_def, Dbl.le] at *

theorem le_pinf {a : Dbl} (ha : a ≠ nan) : a ≤ pinf := by
  cases a <;> simp [le_def, Dbl.le] at *

theorem le_self {a : Dbl} (ha : a ≠ nan) : a ≤ a := by
  cases a <;> simp [le_def, Dbl.le] at *

end Dbl


/-! ### Rounded results -/

theorem overflowBound_pos : 0 < overflowBound := by
  unfold overflowBound
  positivity

theorem fround_ne_nan (x : ℚ) : fround x ≠ .nan := by
  unfold fround
  split_ifs <;> exact Dbl.noConfusion

theorem fround_zero : fround 0 = .fin 0 := by
  have := overflowBound_pos
  unfold fround
  rw [rne_zero, if_neg (by linarith), if_neg (by linarith)]

theorem fround_nonneg {x : ℚ} (hx : 0 ≤ x) : Dbl.fin 0 ≤ fround x := by
  have h := rne_nonneg hx
  have hpos := overflowBound_pos
  unfold fround
  by_cases h1 : overflowBound ≤ rne x
  · rw [if_pos h1]
    exact Dbl.le_pinf Dbl.noConfusion
  · rw [if_neg h1, if_neg (by linarith)]
    exact h

/-- Rounding is monotone on the non-negative numbers, overflow included. -/
theorem fround_mono {x y : ℚ} (hx : 0 ≤ x) (h : x ≤ y) : fround x ≤ fround y := by
  have hm := rne_mono hx h
  have hx0 := rne_nonneg hx
  have hy0 := rne_nonneg (le_trans hx h)
  have hpos := overflowBound_pos
  unfold fround
  by_cases h1 : overflowBound ≤ rne y
  · rw [if_pos h1]
    by_cases h2 : overflowBound ≤ rne x
    · rw [if_pos h2]
      exact Dbl.le_pinf Dbl.noConfusion
    · rw [if_neg h2, if_neg (by linarith)]
      exact Dbl.le_pinf Dbl.noConfusion
  · rw [if_neg h1, if_neg (by linarith), if_neg (by linarith), if_neg (by linarith)]
    exact hm

/-- Evaluation of a rounded result, see `rne_eq`. -/
theorem fround_eq (x y : ℚ) (e n : ℤ) (hx : x ≠ 0) (he : -1022 ≤ e)
    (hlo : 2 ^ e ≤ |x| ∨ e = -1022) (hhi : |x| < 2 ^ (e + 1))
    (hy : y = (n : ℚ) * 2 ^ (e - 52))
    (hn : |x - y| < 2 ^ (e - 53) ∨ (|x - y| = 2 ^ (e - 53) ∧ n % 2 = 0))
    (hfin : |y| < overflowBound) : fround x = .fin y := by
  have hr := rne_eq x y e n hx he hlo hhi hy hn
  obtain ⟨h1, h2⟩ := abs_lt.mp hfin
  unfold fround
  rw [hr, if_neg (not_le.mpr h2), if_neg (not_le.mpr h1)]

theorem fround_one : fround 1 = .fin 1 :=
  fround_eq 1 1 0 (2 ^ 52) (by norm_num) (by norm_num) (Or.inl (by norm_num)) (by norm_num)
    (by norm_num) (Or.inl (by norm_num)) (by norm_num [overflowBound])

namespace Dbl

theorem fadd_fin (x y : ℚ) : fadd (fin x) (fin y) = fround (x + y) := rfl

theorem fdiv_fin (x y : ℚ) (hy : y ≠ 0) : fdiv (fin x) (fin y) = fround (x / y) := by
  simp [fdiv, hy]

theorem fadd_ne_nan_fin {a : Dbl} (ha : a ≠ nan) (w : ℚ) : fadd a (fin w) ≠ nan := by
  cases a with
  | fin x => exact fround_ne_nan _
  | pinf => exact Dbl.noConfusion
  | ninf => exact Dbl.noConfusion
  | nan => exact absurd rfl ha

/-- Adding to a non-negative finite `q` is monotone on the non-negative doubles. -/
theorem fadd_fin_mono {q : ℚ} (hq : 0 ≤ q) {a b : Dbl} (ha : fin 0 ≤ a) (h : a ≤ b) :
    fadd (fin q) a ≤ fadd (fin q) b := by
  cases a with
  | fin x =>
    have hx : 0 ≤ x := ha
    cases b with
    | fin y =>
      have hxy : x ≤ y := h
      exact fround_mono (add_nonneg hq hx) (add_le_add_left hxy q)
    | pinf => exact le_pinf (fround_ne_nan _)
    | ninf => exact absurd h id
    | nan => exact absurd h id
  | pinf =>
    cases b with
    | pinf => exact le_pinf Dbl.noConfusion
    | fin y => exact absurd h id
    | ninf => exact absurd h id
    | nan => exact absurd h id
  | ninf => exact absurd ha id
  | nan => exact absurd ha id

end Dbl


/-- Integers below `2 ^ 53` are converted exactly. -/
theorem rne_natCast (k : Nat) (hk : k < 2 ^ 53) : rne (k : ℚ) = (k : ℚ) := by
  rcases Nat.eq_zero_or_pos k with h0 | hpos
  · subst h0
    simpa using rne_zero
  · have hk0 : k ≠ 0 := Nat.pos_iff_ne_zero.mp hpos
    have he : Nat.log 2 k < 53 := Nat.log_lt_of_lt_pow hk0 hk
    have hlo : 2 ^ Nat.log 2 k ≤ k := Nat.pow_log_le_self 2 hk0
    have hhi : k < 2 ^ (Nat.log 2 k + 1) := Nat.lt_pow_succ_log_self (by norm_num) k
    have hkq : (0 : ℚ) < (k : ℚ) := by exact_mod_cast hpos
    refine rne_eq (k : ℚ) (k : ℚ) (Nat.log 2 k : ℤ) ((k * 2 ^ (52 - Nat.log 2 k) : ℕ) : ℤ)
      (ne_of_gt hkq) (by omega) (Or.inl ?_) ?_ ?_ (Or.inl ?_)
    · rw [abs_of_pos hkq, zpow_natCast]
      exact_mod_cast hlo
    · rw [abs_of_pos hkq]
      have : ((Nat.log 2 k : ℤ) + 1) = ((Nat.log 2 k + 1 : ℕ) : ℤ) := by push_cast; ring
      rw [this, zpow_natCast]
      exact_mod_cast hhi
    · have h2 : (2 : ℚ) ≠ 0 := by norm_num
      have hsub : ((Nat.log 2 k : ℤ) - 52) = -((52 - Nat.log 2 k : ℕ) : ℤ) := by
        rw [Nat.cast_sub (by omega)]
        push_cast
        ring
      rw [hsub, zpow_neg, zpow_natCast]
      push_cast
      field_simp
    · rw [sub_self, abs_zero]
      positivity

namespace Dbl

theorem ofNat_eq (k : Nat) (hk : k < 2 ^ 53) : ofNat k = fin (k : ℚ) := by
  have hr := rne_natCast k hk
  have hb : (k : ℚ) < overflowBound := by
    have h1 : (k : ℚ) < 2 ^ 53 := by exact_mod_cast hk
    have h2 : (2 : ℚ) ^ 53 ≤ overflowBound := by
      unfold overflowBound
      exact pow_le_pow_right₀ (by norm_num) (by norm_num)
    linarith
  have h0 : (0 : ℚ) ≤ (k : ℚ) := Nat.cast_nonneg k
  unfold ofNat fround
  rw [hr, if_neg (by linarith), if_neg (by have := overflowBound_pos; linarith)]

end Dbl

namespace Ieee

open Dbl

theorem accum_succ (weights : List Dbl) (i : Nat) (h : i + 1 < weights.length) :
    accum weights (i + 1) = fadd (accum weights i) weights[i + 1] := by
  rw [accum, List.getD_eq_getElem _ _ h]

theorem accum_zero (weights : List Dbl) (c : Dbl) (h : weights.head? = some c) :
    accum weights 0 = c := by
  cases weights with
  | nil => simp at h
  | cons a t =>
    simp only [List.head?_cons, Option.some.injEq] at h
    simp [accum, h]

/-- With finite weights no accumulated weight is a NaN. -/
theorem accum_ne_nan (weights : List Dbl) (hfin : ∀ w, w ∈ weights → ∃ q, w = fin q) :
    ∀ i, i < weights.length → accum weights i ≠ nan := by
  intro i
  induction i with
  | zero =>
    intro h
    cases weights with
    | nil => simp at h
    | cons a t =>
      obtain ⟨q, hq⟩ := hfin a (List.mem_cons_self _ _)
      simp [accum, hq]
  | succ i ih =>
    intro h
    obtain ⟨q, hq⟩ := hfin _ (List.getElem_mem h)
    rw [accum_succ weights i h, hq]
    exact fadd_ne_nan_fin (ih (by omega)) q

/-- The thresholds computed for a finite non-negative offset and a population size that fits
an `int` do not decrease from one slot to the next, and none is a NaN. -/
theorem threshold_mono_binary64 (N : Nat) (q : ℚ) (hN : 1 ≤ N) (hint : N < 2 ^ 31) (hq : 0 ≤ q)
    (m : Nat) (h1 : 1 ≤ m) (h2 : m ≤ N) :
    threshold N (fin q) m ≤ threshold N (fin q) (m + 1) := by
  have hNq : (0 : ℚ) < (N : ℚ) := by exact_mod_cast hN
  unfold threshold
  rw [ofNat_eq N (by omega), ofNat_eq (m - 1) (by omega), ofNat_eq (m + 1 - 1) (by omega),
    fdiv_fin _ _ (ne_of_gt hNq), fdiv_fin _ _ (ne_of_gt hNq)]
  have h0 : (0 : ℚ) ≤ ((m - 1 : ℕ) : ℚ) / (N : ℚ) := by positivity
  apply fadd_fin_mono hq (fround_nonneg h0)
  apply fround_mono h0
  apply div_le_div_of_nonneg_right _ hNq.le
  exact_mod_cast (by omega : m - 1 ≤ m + 1 - 1)

theorem threshold_mono_le (N : Nat) (q : ℚ) (hN : 1 ≤ N) (hint : N < 2 ^ 31) (hq : 0 ≤ q)
    (hlast : threshold N (fin q) N ≠ nan) :
    ∀ (d m : Nat), 1 ≤ m → m + d = N → threshold N (fin q) m ≤ threshold N (fin q) N := by
  intro d
  induction d with
  | zero =>
    intro m _ h
    have : m = N := by omega
    rw [this]
    exact le_self hlast
  | succ d ih =>
    intro m h1 h
    exact le_le_trans (threshold_mono_binary64 N q hN hint hq m h1 (by omega)) (ih (m + 1) (by omega) (by omega))

/-- The inner loop started on an accumulated weight stops at the first index, from `i` on, at
which the test `u > c` fails, provided it fails at some index `k` of the vector. -/
theorem whileAdvance_reach_binary64 (weights : List Dbl) (u : Dbl) :
    ∀ (d i k : Nat), k = i + d → k < weights.length → ¬ accum weights k < u →
      ∃ j, whileAdvance weights u (accum weights i) i = .ok (accum weights j, j) ∧
        i ≤ j ∧ j ≤ k ∧ ¬ accum weights j < u ∧
        ∀ l, i ≤ l → l < j → accum weights l < u := by
  intro d
  induction d with
  | zero =>
    intro i k hk _ hu
    have hki : k = i := by omega
    rw [hki] at hu
    refine ⟨i, ?_, le_refl _, by omega, hu, fun l h1 h2 => absurd h2 (by omega)⟩
    rw [whileAdvance]
    simp [hu]
  | succ d ih =>
    intro i k hk hlt hu
    by_cases hc : accum weights i < u
    · have hi : i + 1 < weights.length := by omega
      obtain ⟨j, hj, hij, hjk, huj, hall⟩ := ih (i + 1) k (by omega) hlt hu
      refine ⟨j, ?_, by omega, hjk, huj, ?_⟩
      · rw [whileAdvance]
        simp only [gt_iff_lt, hc, if_true, hi, dite_true]
        rw [← accum_succ weights i hi]
        exact hj
      · intro l h1 h2
        by_cases hl : l = i
        · subst hl; exact hc
        · exact hall l (by omega) h2
    · refine ⟨i, ?_, le_refl _, by omega, hc, fun l h1 h2 => absurd h2 (by omega)⟩
      rw [whileAdvance]
      simp [hc]

/-- Invariant of the outer loop.  When the test `u > c` fails at the last index for every
threshold, and an accumulated weight below one threshold stays below the next, the loop runs to
its end inside the vectors, keeps what is already in `tmp`, and appends for each remaining slot
the particle at the first index at which the test fails for the slot's threshold. -/
theorem resampleLoop_spec_binary64 {α : Type} (weights : List Dbl) (particles : List α) (N : Nat)
    (r : Dbl) (hlen : particles.length = weights.length)
    (hstop : ∀ m, 1 ≤ m → m ≤ N → ¬ accum weights (weights.length - 1) < threshold N r m)
    (hcarry : ∀ m j, 1 ≤ m → m ≤ N → accum weights j < threshold N r m →
      accum weights j < threshold N r (m + 1)) :
    ∀ (k m i : Nat) (tmp : List α), 1 ≤ m → m + k = N + 1 → i < weights.length →
      (∀ l, l < i → accum weights l < threshold N r m) →
      ∃ out, resampleLoop weights particles N r k m (accum weights i) i tmp = .ok out ∧
        out.length = tmp.length + k ∧
        (∀ s, s < tmp.length → out[s]? = tmp[s]?) ∧
        ∀ s, s < k → ∃ j, j < weights.length ∧ out[tmp.length + s]? = particles[j]? ∧
          ¬ accum weights j < threshold N r (m + s) ∧
          ∀ l, l < j → accum weights l < threshold N r (m + s) := by
  intro k
  induction k with
  | zero =>
    intro m i tmp _ _ _ _
    exact ⟨tmp, rfl, by simp, fun s _ => rfl, fun s hs => absurd hs (by omega)⟩
  | succ k ih =>
    intro m i tmp hm1 hmk hi hbelow
    obtain ⟨j, hj, hij, hjk, huj, hall⟩ :=
      whileAdvance_reach_binary64 weights (threshold N r m) (weights.length - 1 - i) i
        (weights.length - 1) (by omega) (by omega) (hstop m hm1 (by omega))
    have hjlt : j < weights.length := by omega
    have hfirst : ∀ l, l < j → accum weights l < threshold N r m := by
      intro l hl
      by_cases hli : l < i
      · exact hbelow l hli
      · exact hall l (by omega) hl
    have hpj : particles[j]? = some (particles[j]) := List.getElem?_eq_getElem (by omega)
    have hnext : ∀ l, l < j → accum weights l < threshold N r (m + 1) :=
      fun l hl => hcarry m l hm1 (by omega) (hfirst l hl)
    obtain ⟨out, hout, hlen', hpre, hslots⟩ :=
      ih (m + 1) j (tmp ++ [particles[j]]) (by omega) (by omega) hjlt hnext
    refine ⟨out, ?_, ?_, ?_, ?_⟩
    · have hj' := hj
      unfold threshold at hj'
      rw [resampleLoop]
      simp only [hj', hpj]
      exact hout
    · rw [hlen']; simp; omega
    · intro s hs
      rw [hpre s (by simp; omega), List.getElem?_append_left hs]
    · intro s hs
      cases s with
      | zero =>
        refine ⟨j, hjlt, ?_, huj, hfirst⟩
        rw [Nat.add_zero, hpre tmp.length (by simp), hpj]
        simp
      | succ s =>
        obtain ⟨j', hj', hget, hf1, hf2⟩ := hslots s (by omega)
        have hms : m + 1 + s = m + (s + 1) := by omega
        refine ⟨j', hj', ?_, ?_, ?_⟩
        · rw [← hget]; congr 1; simp; omega
        · rw [← hms]; exact hf1
        · rw [← hms]; exact hf2

/-- Whatever the weights, a run of the outer loop that ends without a fault has appended one
particle of the population per remaining iteration. -/
theorem resampleLoop_ok_binary64 {α : Type} (weights : List Dbl) (particles : List α) (N : Nat)
    (r : Dbl) :
    ∀ (k m : Nat) (c : Dbl) (i : Nat) (tmp out : List α),
      resampleLoop weights particles N r k m c i tmp = .ok out →
      out.length = tmp.length + k ∧ ∀ p, p ∈ out → p ∈ tmp ∨ p ∈ particles := by
  intro k
  induction k with
  | zero =>
    intro m c i tmp out h
    simp only [resampleLoop, Except.ok.injEq] at h
    subst h
    exact ⟨rfl, fun p hp => Or.inl hp⟩
  | succ k ih =>
    intro m c i tmp out h
    rw [resampleLoop] at h
    split at h
    · exact absurd h (by simp)
    · rename_i c' i' _
      split at h
      · exact absurd h (by simp)
      · rename_i p hp
        obtain ⟨hl, hm⟩ := ih _ _ _ _ _ h
        refine ⟨by rw [hl]; simp; omega, fun q hq => ?_⟩
        rcases hm q hq with h1 | h1
        · rcases List.mem_append.mp h1 with h2 | h2
          · exact Or.inl h2
          · simp only [List.mem_singleton] at h2
            subst h2
            exact Or.inr (List.getElem?_mem hp)
        · exact Or.inr h1

theorem importanceResampler_ok_binary64 {α : Type} (weights : List Dbl) (particles : List α)
    (N : Nat) (r : Dbl) (out : List α)
    (h : importanceResampler weights particles N r = .ok out) :
    out.length = N ∧ ∀ p, p ∈ out → p ∈ particles := by
  unfold importanceResampler at h
  split at h
  · exact absurd h (by simp)
  · obtain ⟨hl, hm⟩ := resampleLoop_ok_binary64 weights particles N r _ _ _ _ _ _ h
    refine ⟨by simpa using hl, fun p hp => ?_⟩
    rcases hm p hp with h1 | h1
    · simp at h1
    · exact h1

/-- The resampler in binary64 arithmetic.  For finite weights, a finite non-negative offset and a
population size that fits an `int`: when the accumulated weight at the last index, as the loop
computes it, reaches the last threshold, as the loop computes it, the run ends without a fault
and slot `m` holds the particle at the first index whose accumulated weight reaches the
threshold of the slot. -/
theorem importanceResampler_spec_binary64 {α : Type} (weights : List Dbl) (particles : List α) (N : Nat)
    (q : ℚ) (hN : 1 ≤ N) (hint : N < 2 ^ 31) (hw : weights.length = N)
    (hp : particles.length = N) (hfin : ∀ w, w ∈ weights → ∃ x, w = fin x) (hq : 0 ≤ q)
    (hreach : threshold N (fin q) N ≤ accum weights (N - 1)) :
    ∃ out, importanceResampler weights particles N (fin q) = .ok out ∧ out.length = N ∧
      ∀ m, 1 ≤ m → m ≤ N → ∃ i, i < N ∧ out[m - 1]? = particles[i]? ∧
        threshold N (fin q) m ≤ accum weights i ∧
        ∀ j, j < i → accum weights j < threshold N (fin q) m := by
  have hlast : threshold N (fin q) N ≠ nan := ne_nan_of_le_left hreach
  have hle : ∀ m, 1 ≤ m → m ≤ N → threshold N (fin q) m ≤ threshold N (fin q) N :=
    fun m h1 h2 => threshold_mono_le N q hN hint hq hlast (N - m) m h1 (by omega)
  obtain ⟨c, hc⟩ : ∃ c, weights.head? = some c := by
    cases weights with
    | nil => simp at hw; omega
    | cons a t => exact ⟨a, rfl⟩
  obtain ⟨out, hout, hlen, _, hslots⟩ :=
    resampleLoop_spec_binary64 weights particles N (fin q) (by omega)
      (fun m h1 h2 => not_lt_of_le' (by
        rw [hw]
        exact le_le_trans (hle m h1 h2) hreach))
      (fun m j h1 h2 hlt => lt_le_trans hlt (threshold_mono_binary64 N q hN hint hq m h1 h2))
      N 1 0 [] (le_refl _) (by omega) (by omega) (fun l hl => absurd hl (by omega))
  refine ⟨out, ?_, by simpa using hlen, fun m h1 h2 => ?_⟩
  · unfold importanceResampler
    rw [hc]
    simp only
    rw [← accum_zero weights c hc]
    exact hout
  · obtain ⟨j, hj, hget, hf1, hf2⟩ := hslots (m - 1) (by omega)
    have hm : 1 + (m - 1) = m := by omega
    rw [hm] at hf1 hf2
    refine ⟨j, by omega, by simpa using hget, ?_, hf2⟩
    exact le_of_not_lt' (ne_nan_of_le_left (hle m h1 h2)) (accum_ne_nan weights hfin j hj) hf1

end Ieee


namespace Ieee

open Dbl

theorem whileAdvance_stop (weights : List Dbl) (u c : Dbl) (i : Nat) (h : ¬ c < u) :
    whileAdvance weights u c i = .ok (c, i) := by
  rw [whileAdvance]
  simp [h]

theorem whileAdvance_step (weights : List Dbl) (u c w c' : Dbl) (i : Nat) (h : c < u)
    (hw : weights[i + 1]? = some w) (hc : fadd c w = c') :
    whileAdvance weights u c i = whileAdvance weights u c' (i + 1) := by
  obtain ⟨hi, hget⟩ := List.getElem?_eq_some.mp hw
  rw [whileAdvance]
  simp only [gt_iff_lt, h, if_true, hi, dite_true, hget, hc]

theorem whileAdvance_overrun (weights : List Dbl) (u c : Dbl) (i : Nat) (h : c < u)
    (hi : weights.length ≤ i + 1) :
    whileAdvance weights u c i = .error (.weightsIndex (i + 1)) := by
  rw [whileAdvance]
  simp [h, not_lt.mpr hi]

theorem resampleLoop_step {α : Type} (weights : List Dbl) (particles : List α) (N : Nat)
    (r : Dbl) (k m m' : Nat) (c c' u : Dbl) (i i' : Nat) (tmp : List α) (p : α)
    (hu : threshold N r m = u) (hw : whileAdvance weights u c i = .ok (c', i'))
    (hp : particles[i']? = some p) (hm : m' = m + 1) :
    resampleLoop weights particles N r (k + 1) m c i tmp =
      resampleLoop weights particles N r k m' c' i' (tmp ++ [p]) := by
  unfold threshold at hu
  rw [resampleLoop]
  simp only [hu, hw, hp, hm]

theorem resampleLoop_fault {α : Type} (weights : List Dbl) (particles : List α) (N : Nat)
    (r : Dbl) (k m : Nat) (c u : Dbl) (i : Nat) (tmp : List α) (e : Fault)
    (hu : threshold N r m = u) (hw : whileAdvance weights u c i = .error e) :
    resampleLoop weights particles N r (k + 1) m c i tmp = .error e := by
  unfold threshold at hu
  rw [resampleLoop]
  simp only [hu, hw]

end Ieee

/-- Evaluation of the rounding of a positive number without absolute values, see `fround_eq`. -/
theorem fround_eval (x y : ℚ) (e n : ℤ) (hx : 0 < x) (he : -1022 ≤ e)
    (hlo : 2 ^ e ≤ x ∨ e = -1022) (hhi : x < 2 ^ (e + 1))
    (hy : y = (n : ℚ) * 2 ^ (e - 52)) (hy0 : 0 ≤ y)
    (hn : (x - y < 2 ^ (e - 53) ∧ y - x < 2 ^ (e - 53)) ∨
      ((x - y = 2 ^ (e - 53) ∨ y - x = 2 ^ (e - 53)) ∧ n % 2 = 0))
    (hfin : y < overflowBound) : fround x = .fin y := by
  have hp : (0 : ℚ) < 2 ^ (e - 53) := by positivity
  refine fround_eq x y e n (ne_of_gt hx) he ?_ ?_ hy ?_ ?_
  · rw [abs_of_pos hx]; exact hlo
  · rw [abs_of_pos hx]; exact hhi
  · rcases hn with ⟨h1, h2⟩ | ⟨h | h, hev⟩
    · exact Or.inl (abs_lt.mpr ⟨by linarith, h1⟩)
    · exact Or.inr ⟨by rw [h]; exact abs_of_pos hp, hev⟩
    · refine Or.inr ⟨?_, hev⟩
      have : x - y = -(2 ^ (e - 53)) := by linarith
      rw [this, abs_neg]; exact abs_of_pos hp
  · rw [abs_of_nonneg hy0]; exact hfin

namespace Dbl

theorem fdiv_eval (a b y : ℚ) (hb : b ≠ 0) (h : fround (a / b) = fin y) :
    fdiv (fin a) (fin b) = fin y := by
  rw [fdiv_fin a b hb, h]

end Dbl

/-! ### Bounds on rounded results -/

theorem maxFinite_lt : maxFinite < overflowBound := by
  unfold maxFinite overflowBound
  have : (0 : ℚ) < 2 ^ 971 := by positivity
  linarith

theorem maxFinite_pos : 0 < maxFinite := by
  unfold maxFinite
  have h : (2 : ℚ) ^ 971 < 2 ^ 1024 := pow_lt_pow_right₀ (by norm_num) (by norm_num)
  linarith

/-- A rounded value below the overflow threshold is at most the largest finite double. -/
theorem rne_le_maxFinite {x : ℚ} (hx : 0 ≤ x) (h : rne x < overflowBound) :
    rne x ≤ maxFinite := by
  rcases eq_or_lt_of_le hx with h0 | hpos
  · rw [← h0, rne_zero]
    exact maxFinite_pos.le
  · have h2 : (1 : ℚ) ≤ 2 := by norm_num
    rcases lt_trichotomy (binade x) 1023 with hb | hb | hb
    · have h1 := rne_le_two_zpow hpos
      have h3 : (2 : ℚ) ^ (binade x + 1) ≤ 2 ^ (1023 : ℤ) := zpow_le_zpow_right₀ h2 (by omega)
      have h4 : (2 : ℚ) ^ (1023 : ℤ) ≤ maxFinite := by
        unfold maxFinite
        norm_num
      linarith
    · have hk : (roundEven (x / 2 ^ (binade x - 52)) : ℚ) * 2 ^ (binade x - 52) < overflowBound :=
        h
      unfold rne
      rw [hb] at hk ⊢
      have e1 : (2 : ℚ) ^ ((1023 : ℤ) - 52) = 2 ^ 971 := by norm_num
      rw [e1] at hk ⊢
      have hp : (0 : ℚ) < 2 ^ 971 := by positivity
      have hlt : (roundEven (x / 2 ^ 971) : ℚ) < ((2 ^ 53 : ℤ) : ℚ) := by
        have e2 : overflowBound = ((2 ^ 53 : ℤ) : ℚ) * 2 ^ 971 := by
          unfold overflowBound
          norm_num
        rw [e2] at hk
        exact lt_of_mul_lt_mul_right hk hp.le
      have hlt2 : roundEven (x / 2 ^ 971) < 2 ^ 53 := by exact_mod_cast hlt
      have hle : roundEven (x / 2 ^ 971) ≤ 2 ^ 53 - 1 := by omega
      have hle2 : (roundEven (x / 2 ^ 971) : ℚ) ≤ ((2 ^ 53 - 1 : ℤ) : ℚ) := by exact_mod_cast hle
      have e3 : maxFinite = ((2 ^ 53 - 1 : ℤ) : ℚ) * 2 ^ 971 := by
        unfold maxFinite
        norm_num
      rw [e3]
      exact mul_le_mul_of_nonneg_right hle2 hp.le
    · exfalso
      have hb2 : -1022 < binade x := by omega
      have h1 := two_zpow_binade_le x (ne_of_gt hpos) hb2
      rw [abs_of_pos hpos] at h1
      have h3 := two_zpow_le_rne h1
      have h4 : (2 : ℚ) ^ (1024 : ℤ) ≤ 2 ^ binade x := zpow_le_zpow_right₀ h2 (by omega)
      have h5 : overflowBound = (2 : ℚ) ^ (1024 : ℤ) := by
        unfold overflowBound
        norm_num
      rw [h5] at h
      linarith

theorem rne_maxFinite_succ : rne (maxFinite + 1) = maxFinite := by
  unfold maxFinite
  refine rne_eq _ _ 1023 (2 ^ 53 - 1) (by norm_num) (by norm_num) (Or.inl ?_) ?_ ?_ (Or.inl ?_)
  · rw [abs_of_pos (by norm_num)]
    norm_num
  · rw [abs_of_pos (by norm_num)]
    norm_num
  · norm_num
  · norm_num

theorem rne_tiny : rne (1 / 2 ^ 1024) = 1 / 2 ^ 1024 := by
  refine rne_eq _ _ (-1022) (2 ^ 50) (by positivity) (by norm_num) (Or.inr rfl) ?_ ?_ (Or.inl ?_)
  · rw [abs_of_pos (by positivity)]
    norm_num
  · norm_num
  · rw [sub_self, abs_zero]
    positivity

theorem rne_overflowBound : rne overflowBound = overflowBound := by
  unfold overflowBound
  refine rne_eq _ _ 1024 (2 ^ 52) (by positivity) (by norm_num) (Or.inl ?_) ?_ ?_ (Or.inl ?_)
  · rw [abs_of_pos (by positivity)]
    norm_num
  · rw [abs_of_pos (by positivity)]
    norm_num
  · norm_num
  · rw [sub_self, abs_zero]
    positivity

/-- A result of magnitude `2 ^ 1024` or more overflows to `+inf`. -/
theorem fround_overflow {x : ℚ} (h : overflowBound ≤ x) : fround x = .pinf := by
  have h1 := rne_mono overflowBound_pos.le h
  rw [rne_overflowBound] at h1
  unfold fround
  rw [if_pos h1]

/-- The rounding of a non-negative number is `+inf` or a finite double between 0 and
`maxFinite`. -/
theorem fround_cases {x : ℚ} (hx : 0 ≤ x) :
    fround x = .pinf ∨ (fround x = .fin (rne x) ∧ 0 ≤ rne x ∧ rne x ≤ maxFinite) := by
  have h0 := rne_nonneg hx
  have hpos := overflowBound_pos
  unfold fround
  by_cases h1 : overflowBound ≤ rne x
  · exact Or.inl (if_pos h1)
  · refine Or.inr ⟨?_, h0, rne_le_maxFinite hx (not_le.mp h1)⟩
    rw [if_neg h1, if_neg (by linarith)]

/-- The rounding of a non-negative number that is at most `maxFinite + 1` is finite. -/
theorem fround_bounded {x : ℚ} (hx : 0 ≤ x) (h : x ≤ maxFinite + 1) :
    fround x = .fin (rne x) ∧ 0 ≤ rne x ∧ rne x ≤ maxFinite := by
  have h1 := rne_mono hx h
  rw [rne_maxFinite_succ] at h1
  have h2 := maxFinite_lt
  rcases fround_cases hx with hinf | hfin
  · exfalso
    unfold fround at hinf
    rw [if_neg (by linarith)] at hinf
    have hpos := overflowBound_pos
    have h0 := rne_nonneg hx
    rw [if_neg (by linarith)] at hinf
    exact Dbl.noConfusion hinf
  · exact hfin

theorem rne_one : rne 1 = 1 := by
  simpa using rne_natCast 1 (by norm_num)


namespace Dbl

theorem isFinite_iff (a : Dbl) : a.isFinite = true ↔ ∃ q, a = fin q := by
  cases a <;> simp [isFinite]

/-- The sum of two doubles that are non-negative (or `+inf`) is non-negative (or `+inf`). -/
theorem fadd_nonneg {a b : Dbl} (ha : fin 0 ≤ a) (hb : fin 0 ≤ b) : fin 0 ≤ fadd a b := by
  cases a with
  | fin x =>
    have hx : 0 ≤ x := ha
    cases b with
    | fin y =>
      have hy : 0 ≤ y := hb
      exact fround_nonneg (add_nonneg hx hy)
    | pinf => exact le_pinf Dbl.noConfusion
    | ninf => exact absurd hb id
    | nan => exact absurd hb id
  | pinf =>
    cases b with
    | fin y => exact le_pinf Dbl.noConfusion
    | pinf => exact le_pinf Dbl.noConfusion
    | ninf => exact absurd hb id
    | nan => exact absurd hb id
  | ninf => exact absurd ha id
  | nan => exact absurd ha id

/-- The absolute difference of two finite doubles is non-negative or `+inf`, never a NaN. -/
theorem fabs_fsub_nonneg (x y : ℚ) : fin 0 ≤ fabs (fsub (fin x) (fin y)) := by
  show fin 0 ≤ fabs (fround (x + -y))
  have h : ∀ d : Dbl, d ≠ nan → fin 0 ≤ fabs d := by
    intro d hd
    cases d with
    | fin q => exact abs_nonneg q
    | pinf => exact le_pinf Dbl.noConfusion
    | ninf => exact le_pinf Dbl.noConfusion
    | nan => exact absurd rfl hd
  exact h _ (fround_ne_nan _)

theorem fabs_fsub_self (x : ℚ) : fabs (fsub (fin x) (fin x)) = fin 0 := by
  show fabs (fround (x + -x)) = fin 0
  rw [add_neg_cancel, fround_zero]
  show fin |0| = fin 0
  rw [abs_zero]

theorem fadd_zero_zero : fadd (fin 0) (fin 0) = fin 0 := by
  show fround (0 + 0) = fin 0
  rw [add_zero, fround_zero]

end Dbl

namespace Ieee

open Dbl

/-- The value `1.0 / (s / n + 1.0)` of `probaComputation` for an accumulated difference `s` that
is non-negative or `+inf`: a finite double between 0 and 1, and at least `2 ^ -1024` when `s` is a
finite double. -/
theorem weight_value (s : Dbl) (n : Nat) (hn : 1 ≤ n) (hn53 : n < 2 ^ 53) (hs : fin 0 ≤ s) :
    ∃ w, fdiv (fin 1) (fadd (fdiv s (ofNat n)) (fin 1)) = fin w ∧ 0 ≤ w ∧ w ≤ 1 ∧
      (∀ x, s = fin x → x ≤ maxFinite → 1 / 2 ^ 1024 ≤ w) := by
  rw [ofNat_eq n hn53]
  have hnq : (1 : ℚ) ≤ (n : ℚ) := by exact_mod_cast hn
  have hn0 : (n : ℚ) ≠ 0 := by linarith
  have hmax := maxFinite_pos
  -- the last two steps, from a finite non-negative mean `y`
  have step : ∀ y : ℚ, 0 ≤ y →
      ∃ w, fdiv (fin 1) (fadd (fin y) (fin 1)) = fin w ∧ 0 ≤ w ∧ w ≤ 1 ∧
        (y ≤ maxFinite → 1 / 2 ^ 1024 ≤ w) := by
    intro y hy
    rw [fadd_fin]
    have hy1 : (0 : ℚ) ≤ y + 1 := by linarith
    have hge : (1 : ℚ) ≤ rne (y + 1) := by
      have := rne_mono (by norm_num : (0 : ℚ) ≤ 1) (by linarith : (1 : ℚ) ≤ y + 1)
      rwa [rne_one] at this
    rcases fround_cases hy1 with hinf | ⟨hfin, _, hle⟩
    · rw [hinf]
      refine ⟨0, rfl, le_refl _, by norm_num, fun hym => ?_⟩
      exfalso
      have := (fround_bounded hy1 (by linarith)).1
      rw [hinf] at this
      exact Dbl.noConfusion this
    · rw [hfin]
      have hv0 : rne (y + 1) ≠ 0 := by linarith
      have hvpos : (0 : ℚ) < rne (y + 1) := by linarith
      rw [fdiv_fin 1 _ hv0]
      have hq0 : (0 : ℚ) ≤ 1 / rne (y + 1) := by positivity
      have hq1 : 1 / rne (y + 1) ≤ 1 := by
        rw [div_le_iff₀ hvpos]
        linarith
      have hr1 : rne (1 / rne (y + 1)) ≤ 1 := by
        have := rne_mono hq0 hq1
        rwa [rne_one] at this
      obtain ⟨hf, hf0, _⟩ := fround_bounded hq0 (by linarith)
      rw [hf]
      refine ⟨_, rfl, hf0, hr1, fun _ => ?_⟩
      have hlow : (1 : ℚ) / 2 ^ 1024 ≤ 1 / rne (y + 1) := by
        apply one_div_le_one_div_of_le hvpos
        have := maxFinite_lt
        unfold overflowBound at this
        linarith
      have := rne_mono (by positivity) hlow
      rwa [rne_tiny] at this
  cases s with
  | fin x =>
    have hx : 0 ≤ x := hs
    rw [fdiv_fin x _ hn0]
    have hq0 : (0 : ℚ) ≤ x / n := by positivity
    rcases fround_cases hq0 with hinf | ⟨hfin, h0, hle⟩
    · rw [hinf]
      refine ⟨0, rfl, le_refl _, by norm_num, fun x' hx' hxm => ?_⟩
      exfalso
      have hxx : x' = x := by
        injection hx' with h
        exact h.symm
      subst hxx
      have hq1 : x' / n ≤ maxFinite + 1 := by
        have : x' / n ≤ x' := div_le_self hx hnq
        linarith
      have := (fround_bounded hq0 hq1).1
      rw [hinf] at this
      exact Dbl.noConfusion this
    · rw [hfin]
      obtain ⟨w, hw, hw0, hw1, hwl⟩ := step _ h0
      exact ⟨w, hw, hw0, hw1, fun _ _ _ => hwl hle⟩
  | pinf =>
    have h0 : (0 : ℚ) ≤ (n : ℚ) := by linarith
    refine ⟨0, ?_, le_refl _, by norm_num, fun x hx => ?_⟩
    · show fdiv (fin 1) (fadd (if (0 : ℚ) ≤ (n : ℚ) then pinf else ninf) (fin 1)) = fin 0
      rw [if_pos h0]
      rfl
    · exact Dbl.noConfusion hx
  | ninf => exact absurd hs id
  | nan => exact absurd hs id

/-- With enough entries in `exp_obs` the loop of `probaComputation` ends, and its result is the
left-to-right rounded sum of the absolute differences. -/
theorem sumAbsDiff_eq_binary64 (exp_obs : List Dbl) :
    ∀ (z : List Dbl) (i : Nat) (s : Dbl), z.length + i ≤ exp_obs.length →
      sumAbsDiff exp_obs z i s =
        .ok ((List.zipWith (fun a b => fabs (fsub a b)) z (exp_obs.drop i)).foldl fadd s) := by
  intro z
  induction z with
  | nil => intro i s _; simp [sumAbsDiff]
  | cons zi rest ih =>
    intro i s h
    have hi : i < exp_obs.length := by
      simp only [List.length_cons] at h
      omega
    have hd : exp_obs.drop i = exp_obs[i] :: exp_obs.drop (i + 1) := List.drop_eq_getElem_cons hi
    rw [sumAbsDiff, List.getElem?_eq_getElem hi]
    simp only
    rw [ih (i + 1) _ (by simp only [List.length_cons] at h; omega), hd]
    rfl

theorem foldl_fadd_nonneg :
    ∀ (l : List Dbl) (s : Dbl), fin 0 ≤ s → (∀ d, d ∈ l → fin 0 ≤ d) →
      fin 0 ≤ l.foldl fadd s := by
  intro l
  induction l with
  | nil => intro s hs _; simpa using hs
  | cons d t ih =>
    intro s hs h
    rw [List.foldl_cons]
    exact ih _ (fadd_nonneg hs (h d (List.mem_cons_self _ _)))
      (fun d' hd' => h d' (List.mem_cons_of_mem _ hd'))

theorem zipWith_absDiff_nonneg :
    ∀ (z e : List Dbl), (∀ x, x ∈ z → x.isFinite = true) → (∀ x, x ∈ e → x.isFinite = true) →
      ∀ d, d ∈ List.zipWith (fun a b => fabs (fsub a b)) z e → fin 0 ≤ d := by
  intro z
  induction z with
  | nil => intro e _ _ d hd; simp at hd
  | cons a t ih =>
    intro e hz he d hd
    cases e with
    | nil => simp at hd
    | cons b u =>
      rw [List.zipWith_cons_cons, List.mem_cons] at hd
      rcases hd with rfl | hd
      · obtain ⟨x, rfl⟩ := (isFinite_iff a).mp (hz a (List.mem_cons_self _ _))
        obtain ⟨y, rfl⟩ := (isFinite_iff b).mp (he b (List.mem_cons_self _ _))
        exact fabs_fsub_nonneg x y
      · exact ih u (fun x hx => hz x (List.mem_cons_of_mem _ hx))
          (fun x hx => he x (List.mem_cons_of_mem _ hx)) d hd

theorem foldl_absDiff_self :
    ∀ z : List Dbl, (∀ x, x ∈ z → x.isFinite = true) →
      (List.zipWith (fun a b => fabs (fsub a b)) z z).foldl fadd (fin 0) = fin 0 := by
  intro z
  induction z with
  | nil => intro _; rfl
  | cons a t ih =>
    intro hz
    obtain ⟨x, rfl⟩ := (isFinite_iff a).mp (hz a (List.mem_cons_self _ _))
    rw [List.zipWith_cons_cons, List.foldl_cons, fabs_fsub_self, fadd_zero_zero]
    exact ih (fun x hx => hz x (List.mem_cons_of_mem _ hx))

/-- On range vectors of one length `probaComputation` returns `1.0 / (mean + 1.0)`, all in
binary64 arithmetic. -/
theorem probaComputation_eq_binary64 (z exp_obs : List Dbl) (hlen : z.length = exp_obs.length) :
    probaComputation z exp_obs = .ok (fdiv (fin 1) (fadd (meanAbsDiff z exp_obs) (fin 1))) := by
  unfold probaComputation meanAbsDiff
  rw [sumAbsDiff_eq_binary64 exp_obs z 0 (fin 0) (by omega)]
  simp

/-- For finite entries the value of `probaComputation` is a finite double between 0 and 1. -/
theorem probaComputation_bounds_binary64 (z exp_obs : List Dbl) (hz : z ≠ []) (hz53 : z.length < 2 ^ 53)
    (hlen : z.length = exp_obs.length) (hzf : ∀ x, x ∈ z → x.isFinite = true)
    (hef : ∀ x, x ∈ exp_obs → x.isFinite = true) :
    ∃ w, probaComputation z exp_obs = .ok (fin w) ∧ 0 ≤ w ∧ w ≤ 1 := by
  rw [probaComputation_eq_binary64 z exp_obs hlen]
  unfold meanAbsDiff
  have hn : 1 ≤ z.length := List.length_pos.mpr hz
  have hs := foldl_fadd_nonneg _ (fin 0) (le_refl (0 : ℚ))
    (zipWith_absDiff_nonneg z exp_obs hzf hef)
  obtain ⟨w, hw, h0, h1, _⟩ := weight_value _ z.length hn hz53 hs
  exact ⟨w, by rw [hw], h0, h1⟩

/-- A particle whose predicted range vector is the actual one: `probaComputation z z` is `1.0`. -/
theorem probaComputation_self (z : List Dbl) (hz : z ≠ []) (hz53 : z.length < 2 ^ 53)
    (hzf : ∀ x, x ∈ z → x.isFinite = true) : probaComputation z z = .ok (fin 1) := by
  rw [probaComputation_eq_binary64 z z rfl]
  unfold meanAbsDiff
  rw [foldl_absDiff_self z hzf, ofNat_eq _ hz53]
  have hn : 1 ≤ z.length := List.length_pos.mpr hz
  have hnq : (1 : ℚ) ≤ (z.length : ℚ) := by exact_mod_cast hn
  rw [fdiv_fin 0 _ (by linarith), zero_div, fround_zero, fadd_fin, zero_add, fround_one,
    fdiv_fin 1 1 (by norm_num), div_one, fround_one]

end Ieee


namespace Ieee

open Dbl

theorem particleWeight_blocked_binary64 (occupancy : Int → Int → Nat) (act_range range : List Dbl)
    (pt : Dbl × Dbl) (h : cell occupancy pt = .ok 0) :
    particleWeight occupancy act_range range pt = .ok (fround (1 / 10000)) := by
  unfold particleWeight
  rw [h]
  rfl

theorem particleWeight_free (occupancy : Int → Int → Nat) (act_range range : List Dbl)
    (pt : Dbl × Dbl) (v : Nat) (h : cell occupancy pt = .ok v) (hv : v ≠ 0) :
    particleWeight occupancy act_range range pt = probaComputation act_range range := by
  unfold particleWeight
  rw [h]
  simp only [hv, if_false]

/-- The double `1e-4` is a finite number between `2 ^ -1024` and `1 / 2`. -/
theorem blockedWeight_bounds :
    ∃ b, fround (1 / 10000) = fin b ∧ 1 / 2 ^ 1024 ≤ b ∧ b ≤ 1 / 2 := by
  have h0 : (0 : ℚ) ≤ 1 / 10000 := by norm_num
  obtain ⟨hf, _, _⟩ := fround_bounded h0 (by have := maxFinite_pos; linarith)
  refine ⟨_, hf, ?_, ?_⟩
  · have := rne_mono (by positivity) (by norm_num : (1 : ℚ) / 2 ^ 1024 ≤ 1 / 10000)
    rwa [rne_tiny] at this
  · have h2 : rne (1 / 2) = 1 / 2 :=
      rne_eq _ _ (-1) (2 ^ 52) (by norm_num) (by norm_num)
        (Or.inl (by rw [abs_of_pos (by norm_num)]; norm_num))
        (by rw [abs_of_pos (by norm_num)]; norm_num) (by norm_num)
        (Or.inl (by rw [sub_self, abs_zero]; positivity))
    have := rne_mono h0 (by norm_num : (1 : ℚ) / 10000 ≤ 1 / 2)
    rwa [h2] at this

/-- The weighting loop stores, for every particle it visits, the weight that `particleWeight`
gives that particle, and changes no other entry. -/
theorem weightLoop_spec (occupancy : Int → Int → Nat) (act_range : List Dbl)
    (ranges : Nat → List Dbl) :
    ∀ (ps : List (Dbl × Dbl)) (i : Nat) (ws : List Dbl), i + ps.length ≤ ws.length →
      (∀ j pt, ps[j]? = some pt →
        ∃ w, particleWeight occupancy act_range (ranges (i + j)) pt = .ok w) →
      ∃ ws', weightLoop occupancy act_range ranges ps i ws = .ok ws' ∧
        ws'.length = ws.length ∧
        (∀ j pt, ps[j]? = some pt →
          ∃ w, particleWeight occupancy act_range (ranges (i + j)) pt = .ok w ∧
            ws'[i + j]? = some w) ∧
        ∀ k, k < i → ws'[k]? = ws[k]? := by
  intro ps
  induction ps with
  | nil =>
    intro i ws _ _
    exact ⟨ws, rfl, rfl, fun j pt h => by simp at h, fun _ _ => rfl⟩
  | cons pt rest ih =>
    intro i ws hlen hpw
    simp only [List.length_cons] at hlen
    obtain ⟨w, hw⟩ := hpw 0 pt (by simp)
    have hi : i < ws.length := by omega
    have hrest : ∀ j pt', rest[j]? = some pt' →
        ∃ w', particleWeight occupancy act_range (ranges (i + 1 + j)) pt' = .ok w' := by
      intro j pt' hj
      have := hpw (j + 1) pt' (by simpa using hj)
      rwa [show i + (j + 1) = i + 1 + j by omega] at this
    obtain ⟨ws', hrun, hl, hget, hkeep⟩ :=
      ih (i + 1) (ws.set i w) (by rw [List.length_set]; omega) hrest
    refine ⟨ws', ?_, by rw [hl, List.length_set], ?_, ?_⟩
    · rw [weightLoop]
      rw [add_zero] at hw
      simp only [hw, hi, if_true]
      exact hrun
    · intro j pt' hj
      cases j with
      | zero =>
        simp only [List.getElem?_cons_zero, Option.some.injEq] at hj
        subst hj
        refine ⟨w, hw, ?_⟩
        rw [add_zero, hkeep i (by omega), List.getElem?_set_eq hi]
      | succ j =>
        obtain ⟨w', hw', hg⟩ := hget j pt' (by simpa using hj)
        refine ⟨w', ?_, ?_⟩
        · rwa [show i + (j + 1) = i + 1 + j by omega]
        · rwa [show i + (j + 1) = i + 1 + j by omega]
    · intro k hk
      rw [hkeep k (by omega), List.getElem?_set_ne (by omega)]

/-- When the weight of every particle is computed, `computeWeights` returns `point_num` weights,
entry `i` being the weight `particleWeight` gives particle `i`. -/
theorem computeWeights_spec (occupancy : Int → Int → Nat) (point_num : Nat)
    (act_range : List Dbl) (ranges : Nat → List Dbl) (particles : List (Dbl × Dbl))
    (hN : particles.length = point_num)
    (hpw : ∀ i pt, particles[i]? = some pt →
      ∃ w, particleWeight occupancy act_range (ranges i) pt = .ok w) :
    ∃ weights, computeWeights occupancy point_num act_range ranges particles = .ok weights ∧
      weights.length = point_num ∧
      ∀ i pt, particles[i]? = some pt →
        ∃ w, particleWeight occupancy act_range (ranges i) pt = .ok w ∧
          weights[i]? = some w := by
  obtain ⟨ws', hrun, hl, hget, _⟩ := weightLoop_spec occupancy act_range ranges particles 0
    (List.replicate point_num (fin 0)) (by simp [hN])
    (fun j pt hj => by simpa using hpw j pt hj)
  refine ⟨ws', hrun, by simpa using hl, fun i pt hi => ?_⟩
  simpa using hget i pt hi

/-- The rounded sum of weights that are finite doubles between `2 ^ -1024` and 1 is a finite
double, and it is at least `2 ^ -1024` when there is a weight at all. -/
theorem foldl_fadd_pos :
    ∀ (l : List Dbl) (s : ℚ), 0 ≤ s → s ≤ maxFinite →
      (∀ w, w ∈ l → ∃ x, w = fin x ∧ 1 / 2 ^ 1024 ≤ x ∧ x ≤ 1) →
      ∃ S, l.foldl fadd (fin s) = fin S ∧ 0 ≤ S ∧ S ≤ maxFinite ∧
        ((l ≠ [] ∨ 1 / 2 ^ 1024 ≤ s) → 1 / 2 ^ 1024 ≤ S) := by
  intro l
  induction l with
  | nil =>
    intro s hs hm _
    exact ⟨s, rfl, hs, hm, fun h => h.elim (fun h => absurd rfl h) id⟩
  | cons w t ih =>
    intro s hs hm hl
    obtain ⟨x, rfl, hx0, hx1⟩ := hl w (List.mem_cons_self _ _)
    have hpos : (0 : ℚ) < 1 / 2 ^ 1024 := by positivity
    have hsx : 0 ≤ s + x := by linarith
    obtain ⟨hf, hf0, hfm⟩ := fround_bounded hsx (by linarith)
    have hlow : 1 / 2 ^ 1024 ≤ rne (s + x) := by
      have := rne_mono hpos.le (by linarith : (1 : ℚ) / 2 ^ 1024 ≤ s + x)
      rwa [rne_tiny] at this
    obtain ⟨S, hS, hS0, hSm, hSl⟩ := ih (rne (s + x)) hf0 hfm
      (fun w hw => hl w (List.mem_cons_of_mem _ hw))
    refine ⟨S, ?_, hS0, hSm, fun _ => hSl (Or.inr hlow)⟩
    rw [List.foldl_cons, fadd_fin, hf]
    exact hS

end Ieee


namespace Dbl

theorem fabs_fin_nonneg (d : Dbl) (y : ℚ) (h : fabs d = fin y) : 0 ≤ y := by
  cases d with
  | fin x =>
    injection h with h
    rw [← h]
    exact abs_nonneg x
  | pinf => exact Dbl.noConfusion h
  | ninf => exact Dbl.noConfusion h
  | nan => exact Dbl.noConfusion h

/-- A sum is finite only if both terms are. -/
theorem fadd_eq_fin (a b : Dbl) (s : ℚ) (h : fadd a b = fin s) :
    ∃ x y, a = fin x ∧ b = fin y := by
  cases a <;> cases b <;> first
    | exact ⟨_, _, rfl, rfl⟩
    | exact Dbl.noConfusion h

end Dbl

namespace Ieee

open Dbl

/-- A left-to-right rounded sum is finite only if it starts from a finite value. -/
theorem foldl_fadd_fin_start :
    ∀ (l : List Dbl) (a : Dbl) (s : ℚ), l.foldl fadd a = fin s → ∃ x, a = fin x := by
  intro l
  induction l with
  | nil => intro a s h; exact ⟨s, h⟩
  | cons d t ih =>
    intro a s h
    rw [List.foldl_cons] at h
    obtain ⟨y, hy⟩ := ih _ s h
    obtain ⟨x, _, hx, _⟩ := fadd_eq_fin a d y hy
    exact ⟨x, hx⟩

/-- A finite left-to-right rounded sum of terms that are non-negative whenever they are finite,
started from a double in `[0, maxFinite]`, lies in `[0, maxFinite]`. -/
theorem foldl_fadd_fin_bounds :
    ∀ (l : List Dbl) (a s : ℚ), 0 ≤ a → a ≤ maxFinite →
      (∀ d, d ∈ l → ∀ y, d = fin y → 0 ≤ y) → l.foldl fadd (fin a) = fin s →
      0 ≤ s ∧ s ≤ maxFinite := by
  intro l
  induction l with
  | nil =>
    intro a s h0 hm _ h
    injection h with h
    subst h
    exact ⟨h0, hm⟩
  | cons d t ih =>
    intro a s h0 hm hl h
    rw [List.foldl_cons] at h
    obtain ⟨c, hc⟩ := foldl_fadd_fin_start t _ s h
    obtain ⟨x, y, hx, hy⟩ := fadd_eq_fin (fin a) d c hc
    subst hy
    have hy0 : 0 ≤ y := hl (fin y) (List.mem_cons_self _ _) y rfl
    have hay : 0 ≤ a + y := by linarith
    rw [fadd_fin] at hc h
    rcases fround_cases hay with hinf | ⟨hf, hf0, hfm⟩
    · rw [hinf] at hc
      exact Dbl.noConfusion hc
    · rw [hf] at h
      exact ih _ s hf0 hfm (fun d hd => hl d (List.mem_cons_of_mem _ hd)) h

/-- A finite result of the loop of `probaComputation` lies in `[0, maxFinite]`. -/
theorem sumAbsDiff_fin_bounds (z exp_obs : List Dbl) (s : ℚ)
    (h : sumAbsDiff exp_obs z 0 (fin 0) = .ok (fin s)) : 0 ≤ s ∧ s ≤ maxFinite := by
  have key : ∀ (z : List Dbl) (i : Nat) (a : Dbl) (r : Dbl),
      sumAbsDiff exp_obs z i a = .ok r →
        ∃ l : List Dbl, (∀ d, d ∈ l → ∀ y, d = fin y → 0 ≤ y) ∧ r = l.foldl fadd a := by
    intro z
    induction z with
    | nil =>
      intro i a r hr
      simp only [sumAbsDiff, Except.ok.injEq] at hr
      exact ⟨[], fun d hd => by simp at hd, hr.symm⟩
    | cons zi rest ih =>
      intro i a r hr
      rw [sumAbsDiff] at hr
      cases hg : exp_obs[i]? with
      | none =>
        rw [hg] at hr
        exact Except.noConfusion hr
      | some e =>
        rw [hg] at hr
        obtain ⟨l, hl, hrl⟩ := ih (i + 1) _ r hr
        refine ⟨fabs (fsub zi e) :: l, ?_, by rw [List.foldl_cons]; exact hrl⟩
        intro d hd y hy
        rcases List.mem_cons.mp hd with rfl | hd
        · exact fabs_fin_nonneg _ y hy
        · exact hl d hd y hy
  obtain ⟨l, hl, hr⟩ := key z 0 (fin 0) (fin s) h
  exact foldl_fadd_fin_bounds l 0 s (le_refl _) maxFinite_pos.le hl hr.symm

/-- The weight of a particle on a blocked cell, or on a free cell with a finite accumulated
difference, is a finite double between `2 ^ -1024` and 1. -/
theorem particleWeight_pos (occupancy : Int → Int → Nat) (act_range range : List Dbl)
    (pt : Dbl × Dbl) (v : Nat) (hv : cell occupancy pt = .ok v)
    (hfree : v ≠ 0 → act_range ≠ [] ∧ act_range.length < 2 ^ 53 ∧
      ∃ s, sumAbsDiff range act_range 0 (fin 0) = .ok (fin s)) :
    ∃ x, particleWeight occupancy act_range range pt = .ok (fin x) ∧
      1 / 2 ^ 1024 ≤ x ∧ x ≤ 1 := by
  by_cases h0 : v = 0
  · subst h0
    obtain ⟨b, hb, hlo, hhi⟩ := blockedWeight_bounds
    rw [particleWeight_blocked_binary64 occupancy act_range range pt hv, hb]
    exact ⟨b, rfl, hlo, by linarith⟩
  · obtain ⟨hne, h53, s, hs⟩ := hfree h0
    obtain ⟨hs0, hsm⟩ := sumAbsDiff_fin_bounds act_range range s hs
    obtain ⟨w, hw, _, hw1, hwl⟩ := weight_value (fin s) act_range.length
      (List.length_pos.mpr hne) h53 hs0
    rw [particleWeight_free occupancy act_range range pt v hv h0]
    unfold probaComputation
    rw [hs]
    exact ⟨w, by rw [← hw], hwl s rfl hsm, hw1⟩

end Ieee

namespace Dbl

theorem fin_lt {x y : ℚ} (h : x < y) : fin x < fin y := h

theorem fin_not_lt {x y : ℚ} (h : y ≤ x) : ¬ fin x < fin y := fun h2 => absurd h2 (not_lt.mpr h)

theorem fin_le {x y : ℚ} (h : x ≤ y) : fin x ≤ fin y := h

end Dbl

namespace Ieee

open Dbl

/-- Evaluation of a threshold from the two rounded operations that compute it. -/
theorem threshold_eval (N m : Nat) (q d u : ℚ) (hN : N < 2 ^ 53) (hm : m - 1 < 2 ^ 53)
    (hN0 : (N : ℚ) ≠ 0) (hd : fround (((m - 1 : ℕ) : ℚ) / (N : ℚ)) = fin d)
    (hu : fround (q + d) = fin u) : threshold N (fin q) m = fin u := by
  unfold threshold
  rw [ofNat_eq N hN, ofNat_eq (m - 1) hm, fdiv_fin _ _ hN0, hd, fadd_fin, hu]

theorem whileAdvance_done {weights : List Dbl} {u c : Dbl} {i : Nat} (h : ¬ c < u) :
    whileAdvance weights u c i = .ok (c, i) := whileAdvance_stop weights u c i h

theorem whileAdvance_next {weights : List Dbl} {u c : Dbl} {i : Nat} (w c' : Dbl) (h : c < u)
    (hw : weights[i + 1]? = some w) (hc : fadd c w = c') :
    whileAdvance weights u c i = whileAdvance weights u c' (i + 1) :=
  whileAdvance_step weights u c w c' i h hw hc

theorem whileAdvance_past {weights : List Dbl} {u c : Dbl} {i : Nat} (h : c < u)
    (hi : weights.length ≤ i + 1) :
    whileAdvance weights u c i = .error (.weightsIndex (i + 1)) :=
  whileAdvance_overrun weights u c i h hi

theorem resampleLoop_next {α : Type} {weights : List Dbl} {particles : List α} {N : Nat}
    {r : Dbl} {k m : Nat} {c : Dbl} {i : Nat} {tmp : List α} (u c' : Dbl) (i' : Nat) (p : α)
    (m' : Nat) (hu : threshold N r m = u) (hw : whileAdvance weights u c i = .ok (c', i'))
    (hp : particles[i']? = some p) (hm : m' = m + 1) :
    resampleLoop weights particles N r (k + 1) m c i tmp =
      resampleLoop weights particles N r k m' c' i' (tmp ++ [p]) :=
  resampleLoop_step weights particles N r k m m' c c' u i i' tmp p hu hw hp hm

theorem resampleLoop_stop {α : Type} {weights : List Dbl} {particles : List α} {N : Nat}
    {r : Dbl} {k m : Nat} {c : Dbl} {i : Nat} {tmp : List α} (u : Dbl) (e : Fault)
    (hu : threshold N r m = u) (hw : whileAdvance weights u c i = .error e) :
    resampleLoop weights particles N r (k + 1) m c i tmp = .error e :=
  resampleLoop_fault weights particles N r k m c u i tmp e hu hw

end Ieee


namespace Dbl

theorem toInt_natCast (n : Nat) (h : n < 2 ^ 31) : toInt (fin (n : ℚ)) = .ok (n : Int) := by
  have h1 : ((n : ℚ)) < 2 ^ 31 := by exact_mod_cast h
  have h0 : (0 : ℚ) ≤ (n : ℚ) := Nat.cast_nonneg n
  show (if -(2 ^ 31 : ℚ) - 1 < (n : ℚ) ∧ (n : ℚ) < 2 ^ 31
      then Except.ok (if 0 ≤ (n : ℚ) then ⌊(n : ℚ)⌋ else ⌈(n : ℚ)⌉)
      else Except.error Fault.intCast) = .ok (n : Int)
  rw [if_pos ⟨by linarith, h1⟩, if_pos h0, Int.floor_natCast]

end Dbl

namespace Ieee

open Dbl

theorem cell_natCast (occupancy : Int → Int → Nat) (x y : Nat) (hx : x < 2 ^ 31)
    (hy : y < 2 ^ 31) :
    cell occupancy (fin (x : ℚ), fin (y : ℚ)) = .ok (occupancy (y : Int) (x : Int)) := by
  unfold cell
  simp only [toInt_natCast x hx, toInt_natCast y hy]

theorem weightLoop_cons {occupancy : Int → Int → Nat} {act_range : List Dbl}
    {ranges : Nat → List Dbl} {pt : Dbl × Dbl} {rest : List (Dbl × Dbl)} {i : Nat}
    {weights : List Dbl} (w : Dbl)
    (hw : particleWeight occupancy act_range (ranges i) pt = .ok w) (hi : i < weights.length) :
    weightLoop occupancy act_range ranges (pt :: rest) i weights =
      weightLoop occupancy act_range ranges rest (i + 1) (weights.set i w) := by
  rw [weightLoop]
  simp only [hw, hi, if_true]

end Ieee

namespace Dbl

theorem fadd_nan_right (a : Dbl) : fadd a nan = nan := by
  cases a <;> rfl

theorem fdiv_nan_left (b : Dbl) : fdiv nan b = nan := by
  cases b <;> rfl

theorem fdiv_zero_zero : fdiv (fin 0) (fin 0) = nan := by
  simp [fdiv]

end Dbl

namespace Ieee

open Dbl

theorem finite_of_isFinite (weights : List Dbl) (h : ∀ w, w ∈ weights → w.isFinite = true) :
    ∀ w, w ∈ weights → ∃ x, w = fin x :=
  fun w hw => (isFinite_iff w).mp (h w hw)

end Ieee

namespace Dbl

theorem fabs_fin (x : ℚ) (h : 0 ≤ x) : fabs (fin x) = fin x := by
  show fin |x| = fin x
  rw [abs_of_nonneg h]

end Dbl

/-! ### Claims on the resampler in binary64 arithmetic -/

namespace Ieee

open Dbl

end Ieee

/-! ### Claims on the weights in binary64 arithmetic -/

namespace Ieee

open Dbl

/-- C4 as stated fails in two ways.  With empty range vectors (`ray_num = 0`) the weight of a
particle on a free cell is `1.0 / (0.0 / 0.0 + 1.0)`, a NaN, and so is `weight_sum`, which is not
greater than 0.  With non-empty range vectors of one length, the actual range `2^1023` and the
predicted range `-2^1023` (both doubles), the difference overflows to `+inf`, the weight is
`1.0 / inf = 0.0`, `weight_sum` is `0.0`, not greater than 0, and the normalisation computes
`0.0 / 0.0`, a NaN. -/
theorem filtering_weight_sum_counterexample :
    (computeWeights (fun _ _ => 1) 1 [] (fun _ => []) [(fin 0, fin 0)] = .ok [nan] ∧
        weightSum [nan] = nan ∧ ¬ fin 0 < weightSum [nan]) ∧
      (fround (2 ^ 1023) = fin (2 ^ 1023) ∧
        computeWeights (fun _ _ => 1) 1 [fin (2 ^ 1023)] (fun _ => [fin (-(2 ^ 1023))])
          [(fin 0, fin 0)] = .ok [fin 0] ∧
        weightSum [fin 0] = fin 0 ∧ ¬ fin 0 < weightSum [fin 0] ∧
        normalize [fin 0] = [nan]) := by
  have hc : cell (fun _ _ => 1) (fin 0, fin 0) = .ok 1 := by
    simpa using cell_natCast (fun _ _ => 1) 0 0 (by norm_num) (by norm_num)
  have hl0 : ofNat ([] : List Dbl).length = fin 0 := by
    simpa using ofNat_eq 0 (by norm_num)
  have hpa : probaComputation [] [] = .ok nan := by
    unfold probaComputation
    simp only [sumAbsDiff, hl0, fdiv_zero_zero]
    rfl
  have hwa : particleWeight (fun _ _ => 1) [] [] (fin 0, fin 0) = .ok nan := by
    rw [particleWeight_free _ _ _ _ 1 hc (by norm_num), hpa]
  have hsa : weightSum [nan] = nan := by
    simp only [weightSum, List.foldl_cons, List.foldl_nil, fadd_nan_right]
  have hov : fsub (fin (2 ^ 1023)) (fin (-(2 ^ 1023))) = pinf :=
    fround_overflow (by unfold overflowBound; norm_num)
  have hl1 : ofNat ([fin (2 ^ 1023)] : List Dbl).length = fin 1 := by
    simpa using ofNat_eq 1 (by norm_num)
  have hpb : probaComputation [fin (2 ^ 1023)] [fin (-(2 ^ 1023))] = .ok (fin 0) := by
    unfold probaComputation
    simp only [sumAbsDiff, List.getElem?_cons_zero, hov, hl1]
    rfl
  have hwb : particleWeight (fun _ _ => 1) [fin (2 ^ 1023)] [fin (-(2 ^ 1023))] (fin 0, fin 0)
      = .ok (fin 0) := by
    rw [particleWeight_free _ _ _ _ 1 hc (by norm_num), hpb]
  have hsb : weightSum [fin 0] = fin 0 := by
    simp only [weightSum, List.foldl_cons, List.foldl_nil, fadd_zero_zero]
  refine ⟨⟨?_, hsa, ?_⟩, ?_, ?_, hsb, ?_, ?_⟩
  · unfold computeWeights
    refine (weightLoop_cons nan hwa (by simp)).trans ?_
    rfl
  · rw [hsa]
    exact fun h => h
  · exact fround_eval _ _ 1023 (2 ^ 52) (by norm_num) (by norm_num) (Or.inl (by norm_num))
      (by norm_num) (by norm_num) (by norm_num) (Or.inl ⟨by norm_num, by norm_num⟩)
      (by norm_num [overflowBound])
  · unfold computeWeights
    refine (weightLoop_cons (fin 0) hwb (by simp)).trans ?_
    rfl
  · rw [hsb]
    exact fin_not_lt (le_refl 0)
  · simp only [normalize, hsb, List.map_cons, List.map_nil, fdiv_zero_zero]

/-- C4 (amended): in `filtering`, run in binary64 arithmetic on a non-empty population of
`point_num` particles whose coordinates convert to `int`, if every particle on a free cell has a
non-empty actual range vector (of fewer than `2 ^ 53` entries) and an accumulated absolute
difference that is a finite double (the loop of `probaComputation` meets no NaN and does not
overflow), and also when every particle is on a blocked cell, then the weights are computed, their
sum `weight_sum` is a finite double strictly greater than 0, and the normalisation divides by that
non-zero number. -/
theorem filtering_weight_sum_pos (occupancy : Int → Int → Nat) (point_num : Nat)
    (act_range : List Dbl) (ranges : Nat → List Dbl) (particles : List (Dbl × Dbl))
    (hne : particles ≠ []) (hN : particles.length = point_num)
    (hcell : ∀ pt, pt ∈ particles → ∃ v, cell occupancy pt = .ok v)
    (hz : ∀ i pt, particles[i]? = some pt → cell occupancy pt ≠ .ok 0 →
      act_range ≠ [] ∧ act_range.length < 2 ^ 53 ∧
        ∃ s, sumAbsDiff (ranges i) act_range 0 (fin 0) = .ok (fin s)) :
    ∃ weights S, computeWeights occupancy point_num act_range ranges particles = .ok weights ∧
      weightSum weights = fin S ∧ 0 < S ∧
      normalize weights = weights.map (fun val => fdiv val (fin S)) := by
  have hpw : ∀ i pt, particles[i]? = some pt →
      ∃ x, particleWeight occupancy act_range (ranges i) pt = .ok (fin x) ∧
        1 / 2 ^ 1024 ≤ x ∧ x ≤ 1 := by
    intro i pt hi
    obtain ⟨v, hv⟩ := hcell pt (List.getElem?_mem hi)
    refine particleWeight_pos occupancy act_range (ranges i) pt v hv (fun hv0 => ?_)
    exact hz i pt hi (by rw [hv]; intro h; injection h with h; exact hv0 h)
  obtain ⟨weights, hrun, hlen, hget⟩ := computeWeights_spec occupancy point_num act_range ranges
    particles hN (fun i pt hi => by
      obtain ⟨x, hx, _⟩ := hpw i pt hi
      exact ⟨fin x, hx⟩)
  have hall : ∀ w, w ∈ weights → ∃ x, w = fin x ∧ 1 / 2 ^ 1024 ≤ x ∧ x ≤ 1 := by
    intro w hw
    obtain ⟨i, hi, hwi⟩ := List.getElem_of_mem hw
    have hip : i < particles.length := by omega
    obtain ⟨w', hw', hg⟩ := hget i particles[i] (List.getElem?_eq_getElem hip)
    obtain ⟨x, hx, hlo, hhi⟩ := hpw i particles[i] (List.getElem?_eq_getElem hip)
    rw [hx] at hw'
    injection hw' with hw'
    rw [List.getElem?_eq_getElem hi, hwi] at hg
    injection hg with hg
    exact ⟨x, by rw [hg, ← hw'], hlo, hhi⟩
  have hwne : weights ≠ [] := by
    intro h
    rw [h] at hlen
    have : particles.length = 0 := by rw [hN, ← hlen]; rfl
    exact hne (List.length_eq_zero.mp this)
  obtain ⟨S, hS, _, _, hSl⟩ := foldl_fadd_pos weights 0 (le_refl _) maxFinite_pos.le hall
  have hpos : (0 : ℚ) < 1 / 2 ^ 1024 := by positivity
  refine ⟨weights, S, hrun, hS, lt_of_lt_of_le hpos (hSl (Or.inl hwne)), ?_⟩
  unfold normalize
  rw [show weightSum weights = fin S from hS]

/-- Witness of C4 (amended): two particles, the first on a free cell with the actual range vector
`5, 9` and the predicted range vector `4, 7` (accumulated difference 3), the second on a blocked
cell. -/
theorem filtering_weight_sum_pos_witness :
    ∃ weights S,
      computeWeights (fun _ col => if col ≤ 1 then 1 else 0) 2 [fin 5, fin 9]
          (fun _ => [fin 4, fin 7]) [(fin 1, fin 0), (fin 2, fin 0)] = .ok weights ∧
        weightSum weights = fin S ∧ 0 < S ∧
        normalize weights = weights.map (fun val => fdiv val (fin S)) := by
  have hc1 : cell (fun _ col => if col ≤ 1 then 1 else 0) (fin 1, fin 0) = .ok 1 := by
    simpa using cell_natCast (fun _ col => if col ≤ 1 then 1 else 0) 1 0 (by norm_num)
      (by norm_num)
  have hc2 : cell (fun _ col => if col ≤ 1 then 1 else 0) (fin 2, fin 0) = .ok 0 := by
    simpa using cell_natCast (fun _ col => if col ≤ 1 then 1 else 0) 2 0 (by norm_num)
      (by norm_num)
  have hd1 : fsub (fin 5) (fin 4) = fin 1 :=
    fround_eval _ _ 0 (2 ^ 52) (by norm_num) (by norm_num) (Or.inl (by norm_num))
      (by norm_num) (by norm_num) (by norm_num) (Or.inl ⟨by norm_num, by norm_num⟩)
      (by norm_num [overflowBound])
  have hd2 : fsub (fin 9) (fin 7) = fin 2 :=
    fround_eval _ _ 1 (2 ^ 52) (by norm_num) (by norm_num) (Or.inl (by norm_num))
      (by norm_num) (by norm_num) (by norm_num) (Or.inl ⟨by norm_num, by norm_num⟩)
      (by norm_num [overflowBound])
  have ha1 : fadd (fin 0) (fin 1) = fin 1 :=
    fround_eval _ _ 0 (2 ^ 52) (by norm_num) (by norm_num) (Or.inl (by norm_num))
      (by norm_num) (by norm_num) (by norm_num) (Or.inl ⟨by norm_num, by norm_num⟩)
      (by norm_num [overflowBound])
  have ha2 : fadd (fin 1) (fin 2) = fin 3 :=
    fround_eval _ _ 1 (3 * 2 ^ 51) (by norm_num) (by norm_num) (Or.inl (by norm_num))
      (by norm_num) (by norm_num) (by norm_num) (Or.inl ⟨by norm_num, by norm_num⟩)
      (by norm_num [overflowBound])
  have hs : sumAbsDiff [fin 4, fin 7] [fin 5, fin 9] 0 (fin 0) = .ok (fin 3) := by
    simp only [sumAbsDiff, List.getElem?_cons_zero, List.getElem?_cons_succ, hd1, hd2,
      fabs_fin 1 (by norm_num), fabs_fin 2 (by norm_num), ha1, ha2]
  exact filtering_weight_sum_pos (fun _ col => if col ≤ 1 then 1 else 0) 2 [fin 5, fin 9]
    (fun _ => [fin 4, fin 7]) [(fin 1, fin 0), (fin 2, fin 0)] (by simp) rfl
    (by
      intro pt hpt
      simp only [List.mem_cons, List.mem_singleton, List.not_mem_nil, or_false] at hpt
      rcases hpt with h | h
      · rw [h]
        exact ⟨1, hc1⟩
      · rw [h]
        exact ⟨0, hc2⟩)
    (fun _ _ _ _ => ⟨by simp, by norm_num, 3, hs⟩)

/-- C7 as stated fails for a range vector with a non-finite entry.  With the actual and the
predicted range vector both `[+inf]` the difference `inf - inf` is a NaN, and so is the weight:
`probaComputation(z, z)` is not 1, it is not at most 1, and in `filtering` the particle on a free
cell whose predicted range vector equals the actual one gets the weight NaN. -/
theorem probaComputation_max_counterexample :
    probaComputation [pinf] [pinf] = .ok nan ∧
      probaComputation [pinf] [pinf] ≠ .ok (fin 1) ∧ ¬ nan ≤ fin 1 ∧
      computeWeights (fun _ _ => 1) 1 [pinf] (fun _ => [pinf]) [(fin 0, fin 0)] = .ok [nan] := by
  have hc : cell (fun _ _ => 1) (fin 0, fin 0) = .ok 1 := by
    simpa using cell_natCast (fun _ _ => 1) 0 0 (by norm_num) (by norm_num)
  have hd : fsub pinf pinf = nan := rfl
  have hf : fabs nan = nan := rfl
  have hp : probaComputation [pinf] [pinf] = .ok nan := by
    unfold probaComputation
    simp only [sumAbsDiff, List.getElem?_cons_zero, hd, hf, fadd_nan_right, fdiv_nan_left]
    rfl
  have hw : particleWeight (fun _ _ => 1) [pinf] [pinf] (fin 0, fin 0) = .ok nan := by
    rw [particleWeight_free _ _ _ _ 1 hc (by norm_num), hp]
  refine ⟨hp, ?_, fun h => h, ?_⟩
  · rw [hp]
    intro h
    injection h with h
    exact Dbl.noConfusion h
  · unfold computeWeights
    refine (weightLoop_cons nan hw (by simp)).trans ?_
    rfl

/-- C7 (amended): in binary64 arithmetic, for a non-empty actual range vector `z` of finite
entries, `probaComputation z z = 1`; for a predicted vector of the same length and of finite
entries `probaComputation` returns `1 / (mean absolute difference + 1)`, every operation rounded,
which is at most 1; the blocked-cell weight `1e-4` is below 1; and in `filtering` the weight stored
for particle `i` is `1e-4` when the particle is on a blocked cell and
`probaComputation(act_range, ranges i)` otherwise, is never above 1, and is exactly 1 for a
particle on a free cell whose predicted range vector equals the actual one. -/
theorem probaComputation_max (z exp_obs : List Dbl) (hz : z ≠ []) (hz53 : z.length < 2 ^ 53)
    (hlen : z.length = exp_obs.length) (hzf : ∀ x, x ∈ z → x.isFinite = true)
    (hef : ∀ x, x ∈ exp_obs → x.isFinite = true)
    (occupancy : Int → Int → Nat) (point_num : Nat) (ranges : Nat → List Dbl)
    (particles : List (Dbl × Dbl)) (hN : particles.length = point_num)
    (hcell : ∀ pt, pt ∈ particles → ∃ v, cell occupancy pt = .ok v)
    (hr : ∀ i, (ranges i).length = z.length ∧ ∀ x, x ∈ ranges i → x.isFinite = true) :
    probaComputation z z = .ok (fin 1) ∧
      probaComputation z exp_obs = .ok (fdiv (fin 1) (fadd (meanAbsDiff z exp_obs) (fin 1))) ∧
      fdiv (fin 1) (fadd (meanAbsDiff z exp_obs) (fin 1)) ≤ fin 1 ∧
      fround (1 / 10000) < fin 1 ∧
      ∃ weights, computeWeights occupancy point_num z ranges particles = .ok weights ∧
        weights.length = point_num ∧
        ∀ i pt, particles[i]? = some pt → ∃ w, weights[i]? = some w ∧ w ≤ fin 1 ∧
          (cell occupancy pt = .ok 0 → w = fround (1 / 10000)) ∧
          (cell occupancy pt ≠ .ok 0 →
            probaComputation z (ranges i) = .ok w ∧ (ranges i = z → w = fin 1)) := by
  have hself := probaComputation_self z hz hz53 hzf
  have heq := probaComputation_eq_binary64 z exp_obs hlen
  obtain ⟨b, hb, _, hb2⟩ := blockedWeight_bounds
  have hblt : fround (1 / 10000) < fin 1 := by
    rw [hb]
    show b < 1
    linarith
  have hble : fround (1 / 10000) ≤ fin 1 := by
    rw [hb]
    show b ≤ 1
    linarith
  have hpw : ∀ i pt, particles[i]? = some pt →
      ∃ w, particleWeight occupancy z (ranges i) pt = .ok w ∧ w ≤ fin 1 ∧
        (cell occupancy pt = .ok 0 → w = fround (1 / 10000)) ∧
        (cell occupancy pt ≠ .ok 0 →
          probaComputation z (ranges i) = .ok w ∧ (ranges i = z → w = fin 1)) := by
    intro i pt hi
    obtain ⟨v, hv⟩ := hcell pt (List.getElem?_mem hi)
    by_cases h0 : v = 0
    · subst h0
      refine ⟨_, particleWeight_blocked_binary64 occupancy z (ranges i) pt hv, hble, fun _ => rfl,
        fun h => absurd hv h⟩
    · obtain ⟨w, hw, _, hw1⟩ := probaComputation_bounds_binary64 z (ranges i) hz hz53 (hr i).1.symm
          hzf
        (hr i).2
      refine ⟨fin w, ?_, hw1, fun h => ?_, fun _ => ⟨hw, fun hrz => ?_⟩⟩
      · rw [particleWeight_free occupancy z (ranges i) pt v hv h0, hw]
      · rw [hv] at h
        injection h with h
        exact absurd h h0
      · rw [hrz, hself] at hw
        injection hw with hw
        exact hw.symm
  obtain ⟨weights, hrun, hl, hget⟩ := computeWeights_spec occupancy point_num z ranges particles
    hN (fun i pt hi => by
      obtain ⟨w, hw, _⟩ := hpw i pt hi
      exact ⟨w, hw⟩)
  refine ⟨hself, heq, ?_, hblt, weights, hrun, hl, fun i pt hi => ?_⟩
  · obtain ⟨w, hw, _, hw1⟩ := probaComputation_bounds_binary64 z exp_obs hz hz53 hlen hzf hef
    rw [heq] at hw
    injection hw with hw
    rw [hw]
    exact hw1
  · obtain ⟨w, hw, hle, hbl, hfr⟩ := hpw i pt hi
    obtain ⟨w', hw', hg⟩ := hget i pt hi
    rw [hw] at hw'
    injection hw' with hw'
    subst hw'
    exact ⟨w, hg, hle, hbl, hfr⟩

/-- Witness of C7 (amended): range vectors of length two, one particle on a free cell. -/
theorem probaComputation_max_witness :
    probaComputation [fin 3, fin 5] [fin 3, fin 5] = .ok (fin 1) ∧
      probaComputation [fin 3, fin 5] [fin 4, fin 7] =
        .ok (fdiv (fin 1) (fadd (meanAbsDiff [fin 3, fin 5] [fin 4, fin 7]) (fin 1))) ∧
      fdiv (fin 1) (fadd (meanAbsDiff [fin 3, fin 5] [fin 4, fin 7]) (fin 1)) ≤ fin 1 ∧
      fround (1 / 10000) < fin 1 ∧
      ∃ weights, computeWeights (fun _ _ => 1) 1 [fin 3, fin 5] (fun _ => [fin 3, fin 5])
          [(fin 0, fin 0)] = .ok weights ∧
        weights.length = 1 ∧
        ∀ i pt, ([(fin 0, fin 0)] : List (Dbl × Dbl))[i]? = some pt →
          ∃ w, weights[i]? = some w ∧ w ≤ fin 1 ∧
            (cell (fun _ _ => 1) pt = .ok 0 → w = fround (1 / 10000)) ∧
            (cell (fun _ _ => 1) pt ≠ .ok 0 →
              probaComputation [fin 3, fin 5] ((fun _ => [fin 3, fin 5]) i) = .ok w ∧
                ((fun (_ : Nat) => [fin 3, fin 5]) i = [fin 3, fin 5] → w = fin 1)) :=
  probaComputation_max [fin 3, fin 5] [fin 4, fin 7] (by simp) (by norm_num) rfl
    (by
      intro x hx
      simp only [List.mem_cons, List.mem_singleton, List.not_mem_nil, or_false] at hx
      rcases hx with h | h <;> rw [h] <;> rfl)
    (by
      intro x hx
      simp only [List.mem_cons, List.mem_singleton, List.not_mem_nil, or_false] at hx
      rcases hx with h | h <;> rw [h] <;> rfl)
    (fun _ _ => 1) 1 (fun _ => [fin 3, fin 5]) [(fin 0, fin 0)] rfl
    (by
      intro pt hpt
      simp only [List.mem_singleton] at hpt
      rw [hpt]
      exact ⟨1, by simpa using cell_natCast (fun _ _ => 1) 0 0 (by norm_num) (by norm_num)⟩)
    (fun _ => ⟨rfl, by
      intro x hx
      simp only [List.mem_cons, List.mem_singleton, List.not_mem_nil, or_false] at hx
      rcases hx with h | h <;> rw [h] <;> rfl⟩)

end Ieee

end ParticleFilter
